import Mathlib

/-!
# pop: materialising a nested map as a directory tree

A shallow embedding of `pop.go` (package `pop`) and proofs about it.

The program is stateful only through the filesystem, so every function of the
source becomes a function that takes the filesystem state and returns its Go
result together with the new state.  The Go standard-library calls the source
makes (`path.Join`, `os.MkdirAll`, `os.OpenFile` with
`O_WRONLY|O_CREATE|O_EXCL`, `(*File).WriteString`) are modelled over a
filesystem with case-sensitive names and without symbolic links, which no other
process changes during a call.  What the operating system may refuse for
reasons outside the tree of files (permission, limits on names and paths,
space) is part of the state, as the field `refuse` and the field `refuseWrite`
of `Env`.
-/

namespace Pop

/-! ## Data model -/

/-- Go `string` values, as sequences of characters. -/
abbrev GoString := List Char

/-- The dynamic value held by an `interface{}` slot of a `Corn`: the nil
interface, a nested `Corn`, a `string`, or a value of any other Go type, of
which only the name printed by `%T` matters to the program. -/
inductive Content where
  | nil
  | corn (files : List (GoString × Content))
  | str (text : GoString)
  | other (typeName : GoString)

/-- The Go type `Corn`, `map[string]interface{}`.  Go leaves the iteration order
of a map unspecified; a value of this type lists the entries in the order in
which one run of `range` visits them. -/
abbrev Corn := List (GoString × Content)

/-- What `%T` prints for a content value. -/
def Content.typeName : Content → GoString
  | .nil => "<nil>".toList
  | .corn _ => "pop.Corn".toList
  | .str _ => "string".toList
  | .other t => t

/-! ## The filesystem and the operating-system calls -/

/-- A location in the filesystem: the names leading to it from the filesystem
root `/`. -/
abbrev Loc := List GoString

/-- What a location holds: a directory, or a regular file with its bytes. -/
inductive Node where
  | dir
  | file (bytes : GoString)
  deriving DecidableEq

/-- Classes of failure of the operating-system calls of the model.  The first
three come from what exists: the target exists already (`EEXIST`, `EISDIR`), a
directory on the way to the target is missing (`ENOENT`), or something that is
not a directory stands where a directory is needed (`ENOTDIR`, and `EEXIST` from
`mkdir` inside `os.MkdirAll`).  The others are refusals of the operating system:
no permission (`EACCES`), a name or path beyond the limits of the system
(`ENAMETOOLONG`), a NUL byte in a name (`EINVAL`), no space left (`ENOSPC`). -/
inductive OSError where
  | alreadyExists
  | notFound
  | notADirectory
  | permission
  | nameTooLong
  | invalid
  | noSpace
  deriving DecidableEq

/-- What the process and the operating system bring to a call, and no call
changes: the working directory of the process; for each location, the error
with which the operating system refuses to create an entry there, if it does
(the process may not write to the directory, the name is longer than the
filesystem allows or holds a NUL byte, the path to it is too long, no space is
left); and for each location, the error with which a write to the file there
fails, if it does, with the length of the part of the text written before the
failure. -/
structure Env where
  cwd : Loc
  refuse : Loc → Option OSError
  refuseWrite : Loc → Option (OSError × Nat)

/-- A filesystem state, seen from one process: the environment of the calls and
what exists at each location.  Names are case-sensitive and there are no
symbolic links. -/
structure FS where
  env : Env
  node : Loc → Option Node

/-- The working directory of the process. -/
abbrev FS.cwd (fs : FS) : Loc := fs.env.cwd

/-- The state in which location `l` holds `n` and every other location is as in
`fs`. -/
def FS.set (fs : FS) (l : Loc) (n : Node) : FS :=
  { fs with node := fun k => if k = l then some n else fs.node k }

/-- The invariant of a real filesystem: the filesystem root and the working
directory are directories, and whatever exists lies in a directory. -/
def FS.WF (fs : FS) : Prop :=
  fs.node [] = some .dir ∧ fs.node fs.cwd = some .dir ∧
    ∀ (l : Loc) (s : GoString), fs.node (l ++ [s]) ≠ none → fs.node l = some .dir

/-- The elements of a path: the pieces between its slashes. -/
def comps (path : GoString) : List GoString := path.splitOn '/'

/-- Whether a path starts at the filesystem root. -/
def isRooted (path : GoString) : Bool := path.head? = some '/'

/-- Where the lookup of a path starts: the filesystem root for a rooted path, the
working directory otherwise. -/
def FS.start (fs : FS) (path : GoString) : Loc :=
  if isRooted path then [] else fs.cwd

/-- One element of a path, followed from directory `cur`: an empty element and
`.` stay, `..` goes to the parent (the root is its own parent), a name goes
down. -/
def stepLoc (cur : Loc) (seg : GoString) : Loc :=
  if seg = [] ∨ seg = ['.'] then cur
  else if seg = ['.', '.'] then cur.dropLast
  else cur ++ [seg]

/-- The location a path names when every directory on its way exists. -/
def FS.locOf (fs : FS) (path : GoString) : Loc :=
  (comps path).foldl stepLoc (fs.start path)

/-- Path lookup by the operating system: follows the elements from `cur`; each
element is looked up in a location that must exist and be a directory. -/
def resolve (fs : FS) : Loc → List GoString → Except OSError Loc
  | cur, [] => .ok cur
  | cur, seg :: rest =>
    match fs.node cur with
    | some .dir => resolve fs (stepLoc cur seg) rest
    | some (.file _) => .error .notADirectory
    | none => .error .notFound

/-- The call `os.Stat`: what exists at a path. -/
def Stat (path : GoString) (fs : FS) : Except OSError Node :=
  if path = [] then .error .notFound
  else
    match resolve fs (fs.start path) (comps path) with
    | .error e => .error e
    | .ok l =>
      match fs.node l with
      | some n => .ok n
      | none => .error .notFound

/-- The walk of `os.MkdirAll` over the elements of its path: a name that is
missing is created as a directory, unless the operating system refuses, which
ends the walk with its error; a name that exists as a directory is entered; and
a name that exists as a file ends the walk with an error.  Directories created
before an error stay. -/
def mkdirWalk : FS → Loc → List GoString → Option OSError × FS
  | fs, _, [] => (none, fs)
  | fs, cur, seg :: rest =>
    if seg = [] ∨ seg = ['.'] then mkdirWalk fs cur rest
    else if seg = ['.', '.'] then mkdirWalk fs cur.dropLast rest
    else
      match fs.node (cur ++ [seg]) with
      | some .dir => mkdirWalk fs (cur ++ [seg]) rest
      | some (.file _) => (some .notADirectory, fs)
      | none =>
        match fs.env.refuse (cur ++ [seg]) with
        | some e => (some e, fs)
        | none => mkdirWalk (fs.set (cur ++ [seg]) .dir) (cur ++ [seg]) rest

/-- The call `os.MkdirAll(path, 0700)`: creates the directory `path` and every
missing directory on the way to it, and succeeds without a change when `path`
is a directory already.  The library function tests `path` with `Stat`, calls
itself on the parent of `path`, and then calls `Mkdir`; its effect is that of a
walk over the elements of `path` from the left. -/
def MkdirAll (path : GoString) (fs : FS) : Option OSError × FS :=
  if path = [] then (some .notFound, fs)
  else mkdirWalk fs (fs.start path) (comps path)

/-- The call `os.OpenFile(path, os.O_WRONLY|os.O_CREATE|os.O_EXCL, 0600)`: the
directory that is to hold the file must exist, and nothing may exist at `path`;
unless the operating system refuses, the file is then created empty and the
location of the open file is returned. -/
def OpenFileExcl (path : GoString) (fs : FS) : Except OSError Loc × FS :=
  if path = [] then (.error .notFound, fs)
  else
    match resolve fs (fs.start path) (comps path).dropLast with
    | .error e => (.error e, fs)
    | .ok d =>
      match fs.node d with
      | none => (.error .notFound, fs)
      | some (.file _) => (.error .notADirectory, fs)
      | some .dir =>
        let last := ((comps path).getLast?).getD []
        if last = [] ∨ last = ['.'] ∨ last = ['.', '.'] then (.error .alreadyExists, fs)
        else
          match fs.node (d ++ [last]) with
          | some _ => (.error .alreadyExists, fs)
          | none =>
            match fs.env.refuse (d ++ [last]) with
            | some e => (.error e, fs)
            | none => (.ok (d ++ [last]), fs.set (d ++ [last]) (.file []))

/-- The call `f.WriteString(text)` on a file that has just been opened, hence is
positioned at its start: the file holds `text` afterwards, or, when the write
fails, the bytes written before the failure. -/
def WriteString (f : Loc) (text : GoString) (fs : FS) : Option OSError × FS :=
  match fs.env.refuseWrite f with
  | some (e, n) => (some e, fs.set f (.file (text.take n)))
  | none => (none, fs.set f (.file text))

/-! ## Package `path` -/

/-- One element in the loop of `path.Clean`, on the stack `out` of the elements
kept so far (the last one first). -/
def cleanStep (rooted : Bool) (out : List GoString) (seg : GoString) : List GoString :=
  if seg = [] ∨ seg = ['.'] then out
  else if seg = ['.', '.'] then
    match out with
    | [] => if rooted then [] else [seg]
    | top :: rest => if top = ['.', '.'] then (if rooted then out else seg :: out) else rest
  else seg :: out

/-- The elements `path.Clean` keeps, the last one first. -/
def cleanStack (path : GoString) : List GoString :=
  (comps path).foldl (cleanStep (isRooted path)) []

/-- The function `path.Clean`. -/
def Clean (path : GoString) : GoString :=
  if path = [] then ['.']
  else if isRooted path then '/' :: ['/'].intercalate (cleanStack path).reverse
  else if cleanStack path = [] then ['.']
  else ['/'].intercalate (cleanStack path).reverse

/-- The function `path.Join`, at two elements. -/
def Join (a b : GoString) : GoString :=
  if a = [] then (if b = [] then [] else Clean b)
  else Clean (a ++ '/' :: b)

/-! ## The program -/

/-- The error values the program builds, one constructor for each call of
`fmt.Errorf` in the source, with the arguments given to it. -/
inductive PopError where
  | rootNil
  | createDir (path : GoString) (cause : OSError)
  | dirContent (typeName : GoString)
  | createFile (path : GoString) (cause : OSError)
  | fileContent (path : GoString)
  | writeFile (path : GoString) (cause : OSError)
  deriving DecidableEq

/-- The text of the class of an operating-system error.  It stands for the text
of the error of the library, which also names the call and the path, as in
`open r/x: file exists`. -/
def OSError.text : OSError → GoString
  | .alreadyExists => "file exists".toList
  | .notFound => "no such file or directory".toList
  | .notADirectory => "not a directory".toList
  | .permission => "permission denied".toList
  | .nameTooLong => "file name too long".toList
  | .invalid => "invalid argument".toList
  | .noSpace => "no space left on device".toList

/-- The message of an error, as `fmt.Errorf` formats it. -/
def PopError.message : PopError → GoString
  | .rootNil => "pop: root directory cannot be nil%!(EXTRA <nil>)".toList
  | .createDir path cause =>
    "pop: cannot create directory ".toList ++ path ++ ": ".toList ++ cause.text
  | .dirContent typeName =>
    "pop: directory content is typed ".toList ++ typeName ++ " instead of Corn".toList
  | .createFile path cause =>
    "pop: cannot create file ".toList ++ path ++ ": ".toList ++ cause.text
  | .fileContent path =>
    "pop: file content of ".toList ++ path ++ " should be a string".toList
  | .writeFile path cause =>
    "pop: cannot write file ".toList ++ path ++ ": ".toList ++ cause.text

/-- The error classes of the specification. -/
inductive ErrorKind where
  | InvalidArgument
  | DirCreationError
  | FileCreationError
  | FileWriteError
  | StructuralTypeError
  deriving DecidableEq

/-- The class of each error of the program. -/
def PopError.kind : PopError → ErrorKind
  | .rootNil => .InvalidArgument
  | .createDir _ _ => .DirCreationError
  | .dirContent _ => .StructuralTypeError
  | .createFile _ _ => .FileCreationError
  | .fileContent _ => .StructuralTypeError
  | .writeFile _ _ => .FileWriteError

/-- The function `createDir` of the source. -/
def createDir (path : GoString) (fs : FS) : Option PopError × FS :=
  match MkdirAll path fs with
  | (some e, fs1) => (some (.createDir path e), fs1)
  | (none, fs1) => (none, fs1)

/-- The function `generateFile` of the source. -/
def generateFile (root name : GoString) (content : Content) (fs : FS) :
    Option PopError × FS :=
  match OpenFileExcl (Join root name) fs with
  | (.error e, fs1) => (some (.createFile (Join root name) e), fs1)
  | (.ok f, fs1) =>
    match content with
    | .nil => (none, fs1)
    | .str text =>
      match WriteString f text fs1 with
      | (some e, fs2) => (some (.writeFile (Join root name) e), fs2)
      | (none, fs2) => (none, fs2)
    | _ => (some (.fileContent (Join root name)), fs1)

/-- The test `strings.HasSuffix(name, "/")`. -/
def isDirName (name : GoString) : Bool := name.getLast? = some '/'

mutual
/-- The function `generateDir` of the source. -/
def generateDir (root name : GoString) (content : Content) (fs : FS) :
    Option PopError × FS :=
  match createDir (Join root name) fs with
  | (some e, fs1) => (some e, fs1)
  | (none, fs1) =>
    match content with
    | .nil => (none, fs1)
    | .corn files => generateAll (Join root name) files fs1
    | c => (some (.dirContent c.typeName), fs1)
/-- The loop `for name, content := range files` around a call of `generate`,
which both `GenerateFromRoot` and `generateDir` run: the entries are visited in
turn and the first error ends the loop.  The body is that of `generate`. -/
def generateAll (root : GoString) (files : List (GoString × Content)) (fs : FS) :
    Option PopError × FS :=
  match files with
  | [] => (none, fs)
  | (name, content) :: rest =>
    match (if isDirName name then generateDir root name content fs
      else generateFile root name content fs) with
    | (some e, fs1) => (some e, fs1)
    | (none, fs1) => generateAll root rest fs1
end

/-- The function `generate` of the source. -/
def generate (root name : GoString) (content : Content) (fs : FS) : Option PopError × FS :=
  if isDirName name then generateDir root name content fs
  else generateFile root name content fs

/-- The function `GenerateFromRoot` of the source. -/
def GenerateFromRoot (root : GoString) (files : Corn) (fs : FS) : Option PopError × FS :=
  if root = [] then (some .rootNil, fs)
  else
    match createDir root fs with
    | (some e, fs1) => (some e, fs1)
    | (none, fs1) => generateAll root files fs1

/-! ## Notions used by the statements -/

/-- The length of a Go string in bytes. -/
def byteLen (s : GoString) : Nat := (s.map Char.utf8Size).sum

/-- The error with which a filesystem of Linux refuses a name, if it does: a
name may not hold a NUL byte and may not be longer than 255 bytes. -/
def nameError (s : GoString) : Option OSError :=
  if Char.ofNat 0 ∈ s then some .invalid
  else if 255 < byteLen s then some .nameTooLong
  else none

/-- A filesystem that holds only the working directory `cwd` and the directories
above it, on which the operating system refuses the creation of an entry only
for its name, and never a write. -/
def FS.init (cwd : Loc) : FS :=
  { env := { cwd := cwd, refuse := fun l => (l.getLast?).bind nameError,
             refuseWrite := fun _ => none },
    node := fun l => if l.isPrefixOf cwd then some .dir else none }

/-- The operating system lets the program work at a location: it refuses
neither the creation of an entry there nor a write to the file there. -/
def FS.allows (fs : FS) (l : Loc) : Prop :=
  fs.env.refuse l = none ∧ fs.env.refuseWrite l = none

/-- Extension of a filesystem state: same environment, and whatever exists in
`a` exists unchanged in `b`. -/
def FS.le (a b : FS) : Prop :=
  a.env = b.env ∧ ∀ (l : Loc) (n : Node), a.node l = some n → b.node l = some n

mutual
/-- A content value that holds only directories: absent, or a nested tree of
directory-marked entries with such content. -/
def dirOnly : Content → Bool
  | .nil => true
  | .corn files => dirOnlyAll files
  | _ => false
/-- A tree that holds only directories. -/
def dirOnlyAll : List (GoString × Content) → Bool
  | [] => true
  | (name, content) :: rest => isDirName name && dirOnly content && dirOnlyAll rest
end

/-- The invariant of the stack of `path.Clean`: it holds neither an empty element
nor `.`, no element has a slash, `..` occurs only at the bottom, and not at all
for a rooted path. -/
def StackOK (rooted : Bool) (S : List GoString) : Prop :=
  (∀ s ∈ S, s ≠ [] ∧ s ≠ ['.'] ∧ '/' ∉ s) ∧ (rooted = true → ['.', '.'] ∉ S) ∧
    S.Pairwise (fun a b => a = ['.', '.'] → b = ['.', '.'])

/-- The location named by a stack of `path.Clean`, followed from `start`. -/
def locStack (start : Loc) (S : List GoString) : Loc :=
  S.foldr (fun seg cur => stepLoc cur seg) start

/-- The shape of a cleaned list of elements: `..` occurs only before the first
name. -/
def descending : List GoString → Prop
  | [] => True
  | seg :: rest =>
    if seg = [] ∨ seg = ['.'] ∨ seg = ['.', '.'] then descending rest else ['.', '.'] ∉ rest

/-- A plain name: a single path element that is neither empty, nor `.`, nor
`..`. -/
def plainSeg (s : GoString) : Prop :=
  s ≠ [] ∧ s ≠ ['.'] ∧ s ≠ ['.', '.'] ∧ '/' ∉ s

instance (s : GoString) : Decidable (plainSeg s) := by
  unfold plainSeg
  infer_instance

/-- The name of the file or directory an entry key denotes: the key without its
directory mark. -/
def baseName (name : GoString) : GoString :=
  if isDirName name then name.dropLast else name

/-- The elements that open the cleaned form of a path: the empty element before
the leading slash of a rooted path. -/
def lead (p : GoString) : List GoString := if isRooted p then [[]] else []

/-- The elements of the cleaned form of a directory path `p` under which an
entry is created. -/
def prefixComps (p : GoString) : List GoString := lead p ++ (cleanStack p).reverse

mutual
/-- Whether every key of a nested tree is a plain name, with or without the
directory mark. -/
def plainContent : Content → Bool
  | .corn files => plainAll files
  | _ => true
/-- Whether every key of a tree, at every depth, is a plain name, with or without
the directory mark. -/
def plainAll : List (GoString × Content) → Bool
  | [] => true
  | (name, content) :: rest =>
    decide (plainSeg (baseName name)) && plainContent content && plainAll rest
end

/-- A content value that is neither absent nor a nested tree: what a directory
must not hold. -/
def notTree : Content → Bool
  | .nil => false
  | .corn _ => false
  | _ => true

/-- A content value that is neither absent nor a text: what a file must not
hold. -/
def notText : Content → Bool
  | .nil => false
  | .str _ => false
  | _ => true

mutual
/-- The content a well-formed tree may give to an entry: absent, a nested
well-formed tree for a directory-marked key, or a text for a file-marked key. -/
def wellTyped (isDir : Bool) : Content → Bool
  | .nil => true
  | .corn files => isDir && wellTypedAll files
  | .str _ => !isDir
  | .other _ => false
/-- A well-formed tree: every entry, at every depth, has content that fits the
mark of its key. -/
def wellTypedAll : List (GoString × Content) → Bool
  | [] => true
  | (name, content) :: rest => wellTyped (isDirName name) content && wellTypedAll rest
end

mutual
/-- Whether no two keys of one map of a nested tree denote the same name. -/
def distinctContent : Content → Bool
  | .corn files => distinctAll files
  | _ => true
/-- Whether no two keys of one map of a tree, at every depth, denote the same
name. -/
def distinctAll : List (GoString × Content) → Bool
  | [] => true
  | (name, content) :: rest =>
    decide (baseName name ∉ rest.map (fun e => baseName e.1)) && distinctContent content &&
      distinctAll rest
end

mutual
/-- What the specification expects at the location `rel` beneath the location of
an entry (at `[]`, the entry itself): a directory for a directory-marked key,
populated by its nested tree; a file with the given text, or of zero bytes when
the content is absent, for a file-marked key. -/
def expectEntry (isDir : Bool) (content : Content) (rel : Loc) : Option Node :=
  match content, rel with
  | .corn files, seg :: rest => if isDir then expectAll files (seg :: rest) else none
  | .str text, [] => some (if isDir then .dir else .file text)
  | _, [] => some (if isDir then .dir else .file [])
  | _, _ :: _ => none
/-- What the specification expects at the location `rel` beneath the directory
that a tree populates: the entry whose name is the first element of `rel`
decides. -/
def expectAll (files : List (GoString × Content)) (rel : Loc) : Option Node :=
  match files, rel with
  | [], _ => none
  | _ :: _, [] => none
  | (name, content) :: rest, seg :: rel =>
    if seg = baseName name then expectEntry (isDirName name) content rel
    else expectAll rest (seg :: rel)
end

mutual
/-- Whether the keys of each map of a nested tree are distinct, as the keys of a
Go map are. -/
def nodupContent : Content → Bool
  | .corn files => nodupKeys files
  | _ => true
/-- Whether the keys of each map of a tree, at every depth, are distinct, as the
keys of a Go map are. -/
def nodupKeys : List (GoString × Content) → Bool
  | [] => true
  | (name, content) :: rest =>
    decide (name ∉ rest.map Prod.fst) && nodupContent content && nodupKeys rest
end

/-- Another processing order of a tree: the entries of a map, at any depth, are
visited in another order.  Generated by exchanging two neighbouring entries of a
map and by reordering the content of an entry. -/
inductive Reorder : Content → Content → Prop where
  | refl (c : Content) : Reorder c c
  | swap (pre post : Corn) (x y : GoString × Content) :
      Reorder (.corn (pre ++ x :: y :: post)) (.corn (pre ++ y :: x :: post))
  | inside (pre post : Corn) (name : GoString) (c c' : Content) : Reorder c c' →
      Reorder (.corn (pre ++ (name, c) :: post)) (.corn (pre ++ (name, c') :: post))
  | trans (a b c : Content) : Reorder a b → Reorder b c → Reorder a c

/-- Two processing orders of a map of entries give the same result: whenever the
loop over the first succeeds, the loop over the second succeeds with the same
final state. -/
def AllSame (files files' : Corn) : Prop :=
  ∀ (p : GoString) (fs fs' : FS), fs.WF → p ≠ [] → fs.node (fs.locOf p) = some .dir →
    generateAll p files fs = (none, fs') → generateAll p files' fs = (none, fs')

/-- A state with a one-byte file `r/x` in directory `r`. -/
def fsWithFile : FS :=
  ((FS.init []).set ["r".toList] .dir).set ["r".toList, "x".toList] (.file "1".toList)

/-- A state in which `r/x` is a file, in directory `r`. -/
def fsBlocked : FS :=
  ((FS.init []).set ["r".toList] .dir).set ["r".toList, "x".toList] (.file [])

/-- A state that holds the empty directory `r`. -/
def fsRoot : FS := (FS.init []).set ["r".toList] .dir

/-- The tree of the example of the specification: a directory `a` holding the
file `b.txt` with the text `hello` and the empty directory `c`. -/
def exampleTree : Corn :=
  [("a/".toList, .corn [("b.txt".toList, .str "hello".toList), ("c/".toList, .nil)])]

/-- A tree of directories only. -/
def dirTree : Corn :=
  [("a/".toList, .corn [("c/".toList, .nil)]), ("d/".toList, .nil)]

mutual
/-- Whether no key of a nested tree has `..` among its path elements. -/
def noDotDotContent : Content → Bool
  | .corn files => noDotDotAll files
  | _ => true
/-- Whether no key of a tree, at any depth, has `..` among its path elements. -/
def noDotDotAll : List (GoString × Content) → Bool
  | [] => true
  | (name, content) :: rest =>
    decide (['.', '.'] ∉ comps name) && noDotDotContent content && noDotDotAll rest
end

/-- A state in which `r` is a file. -/
def fsRootFile : FS := (FS.init []).set ["r".toList] (.file [])

/-! ## Lemmas -/

theorem FS.le_refl (a : FS) : a.le a := ⟨rfl, fun _ _ h => h⟩

theorem FS.le_trans {a b c : FS} (h1 : a.le b) (h2 : b.le c) : a.le c :=
  ⟨h1.1.trans h2.1, fun l n h => h2.2 l n (h1.2 l n h)⟩

theorem FS.le_set {fs : FS} {l : Loc} (n : Node) (h : fs.node l = none) : fs.le (fs.set l n) := by
  refine ⟨rfl, fun k m hk => ?_⟩
  simp only [FS.set]
  split
  · next hkl => subst hkl; rw [h] at hk; cases hk
  · exact hk

@[simp] theorem FS.set_cwd (fs : FS) (l : Loc) (n : Node) : (fs.set l n).cwd = fs.cwd := rfl

@[simp] theorem FS.set_node_self (fs : FS) (l : Loc) (n : Node) : (fs.set l n).node l = some n := by
  simp [FS.set]

theorem FS.set_node_of_ne (fs : FS) {l k : Loc} (n : Node) (h : k ≠ l) :
    (fs.set l n).node k = fs.node k := by
  simp [FS.set, h]

theorem FS.set_set (fs : FS) (l : Loc) (n m : Node) : (fs.set l n).set l m = fs.set l m := by
  simp only [FS.set]
  congr 1
  funext k
  split <;> rfl

theorem generateAll_nil (root : GoString) (fs : FS) : generateAll root [] fs = (none, fs) := by
  simp [generateAll]

theorem generateAll_cons (root name : GoString) (content : Content) (rest : Corn) (fs : FS) :
    generateAll root ((name, content) :: rest) fs =
      match generate root name content fs with
      | (some e, fs1) => (some e, fs1)
      | (none, fs1) => generateAll root rest fs1 := by
  rw [generateAll, generate]

theorem mkdirWalk_le (cs : List GoString) : ∀ (fs : FS) (cur : Loc), fs.le (mkdirWalk fs cur cs).2 := by
  induction cs with
  | nil => intro fs cur; exact FS.le_refl fs
  | cons seg rest ih =>
    intro fs cur
    rw [mkdirWalk]
    split
    · exact ih fs cur
    · split
      · exact ih fs _
      · split
        · exact ih fs _
        · exact FS.le_refl fs
        · next h =>
          split
          · exact FS.le_refl fs
          · exact FS.le_trans (FS.le_set .dir h) (ih _ _)

theorem MkdirAll_le (path : GoString) (fs : FS) : fs.le (MkdirAll path fs).2 := by
  unfold MkdirAll
  split
  · exact FS.le_refl fs
  · exact mkdirWalk_le _ _ _

theorem createDir_le (path : GoString) (fs : FS) : fs.le (createDir path fs).2 := by
  have h := MkdirAll_le path fs
  unfold createDir
  split <;> simp_all

theorem createDir_eq_none {path : GoString} {fs fs1 : FS} (h : createDir path fs = (none, fs1)) :
    MkdirAll path fs = (none, fs1) := by
  unfold createDir at h
  split at h
  · simp at h
  · next heq => simp at h; rw [heq, h]

theorem createDir_of_MkdirAll {path : GoString} {fs fs1 : FS} (h : MkdirAll path fs = (none, fs1)) :
    createDir path fs = (none, fs1) := by
  simp [createDir, h]

theorem OpenFileExcl_error {path : GoString} {fs fs1 : FS} {e : OSError}
    (h : OpenFileExcl path fs = (.error e, fs1)) : fs1 = fs := by
  unfold OpenFileExcl at h
  simp only [] at h
  repeat' split at h
  all_goals simp_all

theorem OpenFileExcl_ok {path : GoString} {fs fs1 : FS} {f : Loc}
    (h : OpenFileExcl path fs = (.ok f, fs1)) : fs.node f = none ∧ fs1 = fs.set f (.file []) := by
  unfold OpenFileExcl at h
  simp only [] at h
  repeat' split at h
  all_goals simp_all
  all_goals (obtain ⟨h1, h2⟩ := h; subst h1; subst h2; simp_all)

theorem generateFile_of_ok {root name : GoString} (content : Content) {fs fs1 : FS} {f : Loc}
    (h : OpenFileExcl (Join root name) fs = (.ok f, fs1)) :
    generateFile root name content fs =
      match content with
      | .nil => (none, fs.set f (.file []))
      | .str text =>
        match fs.env.refuseWrite f with
        | some (e, n) => (some (.writeFile (Join root name) e), fs.set f (.file (text.take n)))
        | none => (none, fs.set f (.file text))
      | _ => (some (.fileContent (Join root name)), fs.set f (.file [])) := by
  obtain ⟨_, rfl⟩ := OpenFileExcl_ok h
  unfold generateFile
  rw [h]
  cases content with
  | nil => rfl
  | corn _ => rfl
  | other _ => rfl
  | str text =>
    have he : (fs.set f (.file [])).env.refuseWrite f = fs.env.refuseWrite f := rfl
    simp only [WriteString, FS.set_set, he]
    cases fs.env.refuseWrite f with
    | none => rfl
    | some x => rfl

theorem generateFile_of_error {root name : GoString} (content : Content) {fs fs1 : FS}
    {e : OSError} (h : OpenFileExcl (Join root name) fs = (.error e, fs1)) :
    generateFile root name content fs = (some (.createFile (Join root name) e), fs) := by
  have := OpenFileExcl_error h
  subst this
  unfold generateFile
  rw [h]

theorem generateFile_snd_of_ok {root name : GoString} (content : Content) {fs fs1 : FS}
    {f : Loc} (h : OpenFileExcl (Join root name) fs = (.ok f, fs1)) :
    ∃ b, (generateFile root name content fs).2 = fs.set f (.file b) := by
  rw [generateFile_of_ok content h]
  cases content with
  | nil => exact ⟨_, rfl⟩
  | corn _ => exact ⟨_, rfl⟩
  | other _ => exact ⟨_, rfl⟩
  | str text =>
    simp only
    cases fs.env.refuseWrite f with
    | none => exact ⟨_, rfl⟩
    | some x => exact ⟨_, rfl⟩

theorem generateFile_le (root name : GoString) (content : Content) (fs : FS) :
    fs.le (generateFile root name content fs).2 := by
  cases h : OpenFileExcl (Join root name) fs with
  | mk r fs1 =>
    cases r with
    | error e => rw [generateFile_of_error content h]; exact FS.le_refl fs
    | ok f =>
      obtain ⟨b, hb⟩ := generateFile_snd_of_ok content h
      rw [hb]
      exact FS.le_set _ (OpenFileExcl_ok h).1

mutual
theorem generateDir_le (root name : GoString) (content : Content) (fs : FS) :
    fs.le (generateDir root name content fs).2 := by
  have hc := createDir_le (Join root name) fs
  rw [generateDir]
  split
  · next h => rw [h] at hc; exact hc
  · next fs1 h =>
    rw [h] at hc
    match content with
    | .nil => exact hc
    | .corn files => exact FS.le_trans hc (generateAll_le (Join root name) files fs1)
    | .str _ => exact hc
    | .other _ => exact hc
theorem generateAll_le (root : GoString) (files : List (GoString × Content)) (fs : FS) :
    fs.le (generateAll root files fs).2 := by
  match files with
  | [] => rw [generateAll]; exact FS.le_refl fs
  | (name, content) :: rest =>
    rw [generateAll]
    by_cases hd : isDirName name = true
    · have h1 := generateDir_le root name content fs
      simp only [hd, if_true]
      split
      · next h => rw [h] at h1; exact h1
      · next fs1 h => rw [h] at h1; exact FS.le_trans h1 (generateAll_le root rest fs1)
    · have h1 := generateFile_le root name content fs
      simp only [hd]
      split
      · next h => simp at h; rw [h] at h1; exact h1
      · next fs1 h => simp at h; rw [h] at h1; exact FS.le_trans h1 (generateAll_le root rest fs1)
end

theorem generate_le (root name : GoString) (content : Content) (fs : FS) :
    fs.le (generate root name content fs).2 := by
  unfold generate
  split
  · exact generateDir_le _ _ _ _
  · exact generateFile_le _ _ _ _

theorem comps_ne_nil (path : GoString) : comps path ≠ [] :=
  List.splitOnP_ne_nil _ _

theorem comps_eq_dropLast_append (path : GoString) :
    comps path = (comps path).dropLast ++ [((comps path).getLast?).getD []] := by
  have h := comps_ne_nil path
  rw [List.getLast?_eq_getLast _ h]
  simp [List.dropLast_append_getLast]

theorem resolve_concat (fs : FS) (a : List GoString) (s : GoString) :
    ∀ (cur l : Loc), resolve fs cur (a ++ [s]) = .ok l →
      ∃ d, resolve fs cur a = .ok d ∧ fs.node d = some .dir ∧ l = stepLoc d s := by
  induction a with
  | nil =>
    intro cur l h
    simp only [List.nil_append, resolve] at h
    split at h
    · next hd => simp only [Except.ok.injEq] at h; exact ⟨cur, rfl, hd, h.symm⟩
    · cases h
    · cases h
  | cons x rest ih =>
    intro cur l h
    simp only [List.cons_append, resolve] at h ⊢
    split at h
    · exact ih _ _ h
    · cases h
    · cases h

theorem stepLoc_of_normal {seg : GoString} (cur : Loc)
    (h : ¬ (seg = [] ∨ seg = ['.'] ∨ seg = ['.', '.'])) : stepLoc cur seg = cur ++ [seg] := by
  simp only [not_or] at h
  simp [stepLoc, h.1, h.2.1, h.2.2]

theorem OpenFileExcl_of_Stat {path : GoString} {fs : FS} {n : Node}
    (h : Stat path fs = .ok n) : OpenFileExcl path fs = (.error .alreadyExists, fs) := by
  unfold Stat at h
  split at h
  · cases h
  · next hp =>
    split at h
    · cases h
    · next l hl =>
      rw [comps_eq_dropLast_append path] at hl
      obtain ⟨d, hd, hdir, rfl⟩ := resolve_concat _ _ _ _ _ hl
      unfold OpenFileExcl
      simp only [hp, if_false, hd, hdir]
      split
      · rfl
      · next hlast =>
        rw [stepLoc_of_normal d hlast] at h
        split at h
        · next hn => simp only [hn]
        · cases h

theorem mkdirWalk_idem (cs : List GoString) : ∀ (fs fs1 fs2 : FS) (cur : Loc),
    mkdirWalk fs cur cs = (none, fs1) → fs1.le fs2 → mkdirWalk fs2 cur cs = (none, fs2) := by
  induction cs with
  | nil => intro fs fs1 fs2 cur _ _; rfl
  | cons seg rest ih =>
    intro fs fs1 fs2 cur h hle
    rw [mkdirWalk] at h ⊢
    split
    · next hs => rw [if_pos hs] at h; exact ih _ _ _ _ h hle
    · next hs =>
      rw [if_neg hs] at h
      split
      · next hs2 => rw [if_pos hs2] at h; exact ih _ _ _ _ h hle
      · next hs2 =>
        rw [if_neg hs2] at h
        have key : fs2.node (cur ++ [seg]) = some .dir := by
          split at h
          · next hd =>
            have h1 := mkdirWalk_le rest fs (cur ++ [seg])
            rw [h] at h1
            exact hle.2 _ _ (h1.2 _ _ hd)
          · cases h
          · split at h
            · cases h
            · have h1 := mkdirWalk_le rest (fs.set (cur ++ [seg]) .dir) (cur ++ [seg])
              rw [h] at h1
              exact hle.2 _ _ (h1.2 _ _ (FS.set_node_self _ _ _))
        simp only [key]
        split at h
        · exact ih _ _ _ _ h hle
        · cases h
        · split at h
          · cases h
          · exact ih _ _ _ _ h hle

theorem createDir_idem {path : GoString} {fs fs1 fs2 : FS}
    (h : createDir path fs = (none, fs1)) (hle : fs1.le fs2) : createDir path fs2 = (none, fs2) := by
  have h1 := createDir_eq_none h
  apply createDir_of_MkdirAll
  unfold MkdirAll at h1 ⊢
  split
  · next hp => simp [hp] at h1
  · next hp =>
    rw [if_neg hp] at h1
    have hs : fs2.start path = fs.start path := by
      have hc : fs.env = fs2.env := by
        have := mkdirWalk_le (comps path) fs (fs.start path)
        rw [h1] at this
        exact this.1.trans hle.1
      simp [FS.start, FS.cwd, hc]
    rw [hs]
    exact mkdirWalk_idem _ _ _ _ _ h1 hle

mutual
theorem generateDir_idem (root name : GoString) (content : Content) (fs fs1 fs2 : FS)
    (hd : dirOnly content = true) (h : generateDir root name content fs = (none, fs1))
    (hle : fs1.le fs2) : generateDir root name content fs2 = (none, fs2) := by
  rw [generateDir] at h ⊢
  split at h
  · cases h
  · next fs0 h0 =>
    match content with
    | .nil =>
      simp only [Prod.mk.injEq, true_and] at h
      subst h
      rw [createDir_idem h0 hle]
    | .corn files =>
      simp only at h
      have hle0 : fs0.le fs1 := by
        have := generateAll_le (Join root name) files fs0
        rw [h] at this
        exact this
      rw [createDir_idem h0 (FS.le_trans hle0 hle)]
      simp only
      rw [dirOnly] at hd
      exact generateAll_idem (Join root name) files fs0 fs1 fs2 hd h hle
    | .str _ => simp [dirOnly] at hd
    | .other _ => simp [dirOnly] at hd
theorem generateAll_idem (root : GoString) (files : List (GoString × Content)) (fs fs1 fs2 : FS)
    (hd : dirOnlyAll files = true) (h : generateAll root files fs = (none, fs1))
    (hle : fs1.le fs2) : generateAll root files fs2 = (none, fs2) := by
  match files with
  | [] => rw [generateAll]
  | (name, content) :: rest =>
    rw [dirOnlyAll] at hd
    simp only [Bool.and_eq_true] at hd
    rw [generateAll] at h ⊢
    simp only [hd.1.1, if_true] at h ⊢
    split at h
    · cases h
    · next fs0 h0 =>
      have hle0 : fs0.le fs1 := by
        have := generateAll_le root rest fs0
        rw [h] at this
        exact this
      rw [generateDir_idem root name content fs fs0 fs2 hd.1.2 h0 (FS.le_trans hle0 hle)]
      exact generateAll_idem root rest fs0 fs1 fs2 hd.2 h hle
end

theorem generateAll_first_error (root : GoString) (name : GoString) (content : Content)
    (post : Corn) (err : PopError) (fs3 : FS) : ∀ (pre : Corn) (fs1 fs2 : FS),
    generateAll root pre fs1 = (none, fs2) → generate root name content fs2 = (some err, fs3) →
    generateAll root (pre ++ (name, content) :: post) fs1 = (some err, fs3) := by
  intro pre
  induction pre with
  | nil =>
    intro fs1 fs2 h1 h2
    rw [generateAll_nil] at h1
    simp only [Prod.mk.injEq, true_and] at h1
    subst h1
    rw [List.nil_append, generateAll_cons, h2]
  | cons e rest ih =>
    intro fs1 fs2 h1 h2
    obtain ⟨n, c⟩ := e
    rw [generateAll_cons] at h1
    rw [List.cons_append, generateAll_cons]
    split at h1
    · cases h1
    · exact ih _ _ h1 h2

theorem comps_nil : comps [] = [[]] := rfl

theorem comps_cons (c : Char) (p : GoString) :
    comps (c :: p) =
      if c = '/' then [] :: comps p else (comps p).modifyHead (fun h => c :: h) := by
  unfold comps List.splitOn
  rw [List.splitOnP_cons]
  by_cases h : c = '/' <;> simp [h]

theorem comps_no_slash (p : GoString) : ∀ s ∈ comps p, '/' ∉ s := by
  induction p with
  | nil => simp [comps_nil]
  | cons c p ih =>
    rw [comps_cons]
    split
    · intro s hs
      rcases List.mem_cons.1 hs with h | h
      · subst h; simp
      · exact ih s h
    · next hc =>
      intro s hs
      have hne := comps_ne_nil p
      cases hcp : comps p with
      | nil => exact absurd hcp hne
      | cons a t =>
        rw [hcp] at hs ih
        simp only [List.modifyHead_cons, List.mem_cons] at hs
        rcases hs with h | h
        · subst h
          have := ih a (List.mem_cons_self _ _)
          simp only [List.mem_cons, not_or]
          exact ⟨fun h => hc h.symm, this⟩
        · exact ih s (List.mem_cons_of_mem _ h)

theorem comps_append_slash (a b : GoString) : comps (a ++ '/' :: b) = comps a ++ comps b := by
  induction a with
  | nil => simp [comps_cons, comps_nil]
  | cons c a ih =>
    rw [List.cons_append, comps_cons, comps_cons, ih]
    split
    · rfl
    · have hne := comps_ne_nil a
      cases hcp : comps a with
      | nil => exact absurd hcp hne
      | cons x t => simp

theorem comps_of_no_slash {s : GoString} (h : '/' ∉ s) : comps s = [s] := by
  induction s with
  | nil => rfl
  | cons c s ih =>
    simp only [List.mem_cons, not_or] at h
    rw [comps_cons, if_neg (fun hc => h.1 hc.symm), ih h.2]
    rfl

theorem comps_intercalate (ls : List GoString) (hx : ∀ l ∈ ls, '/' ∉ l) (hls : ls ≠ []) :
    comps (['/'].intercalate ls) = ls :=
  List.splitOn_intercalate _ _ hx hls

theorem isRooted_append {a : GoString} (b : GoString) (h : a ≠ []) :
    isRooted (a ++ b) = isRooted a := by
  cases a with
  | nil => exact absurd rfl h
  | cons c a => rfl

theorem StackOK_nil (r : Bool) : StackOK r [] := by
  simp [StackOK]

theorem cleanStep_ok {r : Bool} {S : List GoString} {seg : GoString} (h : StackOK r S)
    (hs : '/' ∉ seg) : StackOK r (cleanStep r S seg) := by
  obtain ⟨h1, h2, h3⟩ := h
  unfold cleanStep
  split
  · exact ⟨h1, h2, h3⟩
  · next hne =>
    simp only [not_or] at hne
    split
    · next hdd =>
      subst hdd
      match S, h1, h2, h3 with
      | [], _, _, _ =>
        by_cases hr : r = true
        · simp [hr, StackOK]
        · simp [hr, StackOK]
      | top :: rest, h1, h2, h3 =>
        simp only
        split
        · next htop =>
          subst htop
          cases r with
          | true => simp only [if_true]; exact ⟨h1, h2, h3⟩
          | false =>
            simp only [Bool.false_eq_true, if_false]
            refine ⟨?_, fun h => absurd h (by simp), ?_⟩
            · intro s hs'
              rcases List.mem_cons.1 hs' with h | h
              · subst h; simp
              · exact h1 s h
            · rw [List.pairwise_cons] at h3 ⊢
              refine ⟨?_, List.pairwise_cons.2 h3⟩
              intro b hb _
              rcases List.mem_cons.1 hb with h | h
              · exact h
              · exact h3.1 b h rfl
        · refine ⟨fun s hs' => h1 s (List.mem_cons_of_mem _ hs'), ?_, (List.pairwise_cons.1 h3).2⟩
          intro hr hmem
          exact h2 hr (List.mem_cons_of_mem _ hmem)
    · next hdd =>
      refine ⟨?_, ?_, ?_⟩
      · intro s hs'
        rcases List.mem_cons.1 hs' with h | h
        · subst h; exact ⟨hne.1, hne.2, hs⟩
        · exact h1 s h
      · intro hr hmem
        rcases List.mem_cons.1 hmem with h | h
        · exact hdd h.symm
        · exact h2 hr h
      · rw [List.pairwise_cons]
        exact ⟨fun b _ hb => absurd hb hdd, h3⟩

theorem foldl_cleanStep_ok {r : Bool} (cs : List GoString) (hcs : ∀ s ∈ cs, '/' ∉ s) :
    ∀ S, StackOK r S → StackOK r (cs.foldl (cleanStep r) S) := by
  induction cs with
  | nil => intro S h; exact h
  | cons c cs ih =>
    intro S h
    exact ih (fun s hs => hcs s (List.mem_cons_of_mem _ hs)) _
      (cleanStep_ok h (hcs c (List.mem_cons_self _ _)))

theorem cleanStack_ok (p : GoString) : StackOK (isRooted p) (cleanStack p) :=
  foldl_cleanStep_ok _ (comps_no_slash p) _ (StackOK_nil _)

theorem locStack_cleanStep {r : Bool} {S : List GoString} (seg : GoString) (start : Loc)
    (h : StackOK r S) (hr : r = true → start = []) :
    locStack start (cleanStep r S seg) = stepLoc (locStack start S) seg := by
  obtain ⟨h1, h2, h3⟩ := h
  unfold cleanStep
  split
  · next hs => simp only [stepLoc, if_pos hs]
  · next hne =>
    split
    · next hdd =>
      subst hdd
      match S, h1, h2, h3 with
      | [], _, _, _ =>
        by_cases hr' : r = true
        · simp [hr', locStack, stepLoc, hr hr']
        · simp [hr', locStack]
      | top :: rest, h1, h2, h3 =>
        simp only
        split
        · next htop =>
          subst htop
          by_cases hr' : r = true
          · exact absurd (List.mem_cons_self _ _) (h2 hr')
          · simp [hr', locStack]
        · next htop =>
          have ht := h1 top (List.mem_cons_self _ _)
          simp [locStack, stepLoc, ht.1, ht.2.1, htop]
    · simp [locStack]

theorem locStack_foldl {r : Bool} (start : Loc) (hr : r = true → start = [])
    (cs : List GoString) (hcs : ∀ s ∈ cs, '/' ∉ s) :
    ∀ S, StackOK r S →
      locStack start (cs.foldl (cleanStep r) S) = cs.foldl stepLoc (locStack start S) := by
  induction cs with
  | nil => intro S _; rfl
  | cons c cs ih =>
    intro S h
    simp only [List.foldl_cons]
    rw [ih (fun s hs => hcs s (List.mem_cons_of_mem _ hs)) _
      (cleanStep_ok h (hcs c (List.mem_cons_self _ _))), locStack_cleanStep c start h hr]

theorem locStack_eq_foldl (start : Loc) (S : List GoString) :
    locStack start S = S.reverse.foldl stepLoc start := by
  simp [locStack, List.foldl_reverse]

theorem locStack_cleanStack (fs : FS) (p : GoString) :
    locStack (fs.start p) (cleanStack p) = fs.locOf p := by
  unfold cleanStack FS.locOf
  rw [locStack_foldl (fs.start p) _ (comps p) (comps_no_slash p) [] (StackOK_nil _)]
  · rfl
  · intro h; simp [FS.start, h]

theorem descending_of_no_dotdot {cs : List GoString} (h : ['.', '.'] ∉ cs) : descending cs := by
  induction cs with
  | nil => trivial
  | cons c cs ih =>
    simp only [List.mem_cons, not_or] at h
    unfold descending
    split
    · exact ih h.2
    · exact h.2

theorem descending_of_pairwise {xs : List GoString}
    (h : xs.Pairwise (fun a b => b = ['.', '.'] → a = ['.', '.'])) : descending xs := by
  induction xs with
  | nil => trivial
  | cons x xs ih =>
    rw [List.pairwise_cons] at h
    unfold descending
    split
    · exact ih h.2
    · next hx =>
      simp only [not_or] at hx
      intro hmem
      exact hx.2.2 (h.1 _ hmem rfl)

theorem descending_reverse_of_ok {r : Bool} {S : List GoString} (h : StackOK r S) :
    descending S.reverse := by
  apply descending_of_pairwise
  rw [List.pairwise_reverse]
  exact h.2.2

theorem Clean_ne_nil (q : GoString) : Clean q ≠ [] := by
  unfold Clean
  split
  · simp
  · split
    · simp
    · split
      · simp
      · next hq hr hS =>
        have hok := cleanStack_ok q
        intro h
        have h2 := comps_intercalate (cleanStack q).reverse
          (fun l hl => (hok.1 l (List.mem_reverse.1 hl)).2.2) (by simpa using hS)
        rw [h, comps_nil] at h2
        have h3 : [] ∈ (cleanStack q) := by
          rw [← List.mem_reverse, ← h2]; simp
        exact (hok.1 _ h3).1 rfl

theorem comps_Clean_of_stack {q : GoString} (hq : q ≠ []) (hS : cleanStack q ≠ []) :
    comps (Clean q) = prefixComps q := by
  have hok := cleanStack_ok q
  have h2 := comps_intercalate (cleanStack q).reverse
    (fun l hl => (hok.1 l (List.mem_reverse.1 hl)).2.2) (by simpa using hS)
  unfold Clean prefixComps lead
  rw [if_neg hq]
  split
  · rw [comps_cons, if_pos rfl, h2]; rfl
  · rw [h2]; rfl

theorem comps_Clean_of_empty {q : GoString} (hq : q ≠ []) (hS : cleanStack q = []) :
    comps (Clean q) = if isRooted q then [[], []] else [['.']] := by
  unfold Clean
  rw [if_neg hq]
  split
  · rw [hS]; rfl
  · rfl

theorem head?_intercalate_cons (x : GoString) (xs : List GoString) (hx : x ≠ []) :
    (['/'].intercalate (x :: xs)).head? = x.head? := by
  cases x with
  | nil => exact absurd rfl hx
  | cons c x =>
    cases xs <;> simp [List.intercalate, List.intersperse]

theorem isRooted_Clean {q : GoString} (hq : q ≠ []) : isRooted (Clean q) = isRooted q := by
  have hok := cleanStack_ok q
  unfold Clean
  rw [if_neg hq]
  split
  · next hr => rw [hr]; rfl
  · next hr =>
    simp only [Bool.not_eq_true] at hr
    rw [hr]
    split
    · rfl
    · next hS =>
      have hne : (cleanStack q).reverse ≠ [] := by simpa using hS
      cases hrev : (cleanStack q).reverse with
      | nil => exact absurd hrev hne
      | cons x xs =>
        have hx : x ∈ cleanStack q := by
          rw [← List.mem_reverse, hrev]; exact List.mem_cons_self _ _
        have hx1 := hok.1 x hx
        unfold isRooted
        rw [head?_intercalate_cons x xs hx1.1]
        cases x with
        | nil => exact absurd rfl hx1.1
        | cons c x =>
          simp only [List.head?_cons, Option.some.injEq, decide_eq_false_iff_not]
          intro hc
          exact hx1.2.2 (hc ▸ List.mem_cons_self _ _)

theorem descending_prefixComps (p : GoString) : descending (prefixComps p) := by
  have h := descending_reverse_of_ok (cleanStack_ok p)
  unfold prefixComps lead
  split
  · simp only [List.singleton_append]
    unfold descending
    simp only [true_or, if_true]
    exact h
  · exact h

theorem foldl_prefixComps (fs : FS) (p : GoString) :
    (prefixComps p).foldl stepLoc (fs.start p) = fs.locOf p := by
  rw [← locStack_cleanStack fs p, locStack_eq_foldl]
  unfold prefixComps lead
  split
  · simp [stepLoc]
  · simp

theorem descending_comps_Clean (q : GoString) : descending (comps (Clean q)) := by
  by_cases hq : q = []
  · subst hq; simp [Clean, comps_of_no_slash, descending]
  · by_cases hS : cleanStack q = []
    · rw [comps_Clean_of_empty hq hS]
      split <;> simp [descending]
    · rw [comps_Clean_of_stack hq hS]
      exact descending_prefixComps q

theorem name_eq_of_isDirName {name : GoString} (h : isDirName name = true) :
    name = baseName name ++ ['/'] := by
  unfold isDirName at h
  simp only [decide_eq_true_eq] at h
  have hne : name ≠ [] := by
    intro hn; subst hn; simp at h
  rw [List.getLast?_eq_getLast _ hne] at h
  simp only [Option.some.injEq] at h
  have := List.dropLast_append_getLast hne
  rw [h] at this
  simp only [baseName, isDirName, List.getLast?_eq_getLast _ hne, h, decide_True, if_true]
  exact this.symm

theorem foldl_cleanStep_name {name : GoString} (hn : plainSeg (baseName name)) (r : Bool)
    (S : List GoString) : (comps name).foldl (cleanStep r) S = baseName name :: S := by
  obtain ⟨h1, h2, h3, h4⟩ := hn
  by_cases hd : isDirName name = true
  · have hname := name_eq_of_isDirName hd
    have hc : comps name = [baseName name, []] := by
      conv_lhs => rw [hname]
      rw [comps_append_slash, comps_of_no_slash h4]
      rfl
    rw [hc]
    simp [cleanStep, h1, h2, h3]
  · have hb : baseName name = name := by simp [baseName, hd]
    rw [hb] at h1 h2 h3 h4 ⊢
    rw [comps_of_no_slash h4]
    simp [cleanStep, h1, h2, h3]

theorem cleanStack_Join {p name : GoString} (hp : p ≠ []) (hn : plainSeg (baseName name)) :
    cleanStack (p ++ '/' :: name) = baseName name :: cleanStack p := by
  unfold cleanStack
  rw [comps_append_slash, List.foldl_append, isRooted_append _ hp, foldl_cleanStep_name hn]

theorem Join_eq_Clean {p : GoString} (name : GoString) (hp : p ≠ []) :
    Join p name = Clean (p ++ '/' :: name) := by
  simp [Join, hp]

theorem Join_ne_nil {p : GoString} (name : GoString) (hp : p ≠ []) : Join p name ≠ [] := by
  rw [Join_eq_Clean name hp]
  exact Clean_ne_nil _

theorem comps_Join {p name : GoString} (hp : p ≠ []) (hn : plainSeg (baseName name)) :
    comps (Join p name) = prefixComps p ++ [baseName name] := by
  have hq : p ++ '/' :: name ≠ [] := by simp
  rw [Join_eq_Clean name hp, comps_Clean_of_stack hq (by rw [cleanStack_Join hp hn]; simp)]
  unfold prefixComps lead
  rw [cleanStack_Join hp hn, isRooted_append _ hp]
  simp

theorem start_Join (fs : FS) {p : GoString} (name : GoString) (hp : p ≠ []) :
    fs.start (Join p name) = fs.start p := by
  have hq : p ++ '/' :: name ≠ [] := by simp
  unfold FS.start
  rw [Join_eq_Clean name hp, isRooted_Clean hq, isRooted_append _ hp]

theorem locOf_Join (fs : FS) {p name : GoString} (hp : p ≠ []) (hn : plainSeg (baseName name)) :
    fs.locOf (Join p name) = fs.locOf p ++ [baseName name] := by
  have h := foldl_prefixComps fs p
  have h0 : fs.locOf (Join p name) =
      (comps (Join p name)).foldl stepLoc (fs.start (Join p name)) := rfl
  rw [h0, comps_Join hp hn, start_Join fs name hp, List.foldl_append, h]
  obtain ⟨h1, h2, h3, _⟩ := hn
  simp [stepLoc, h1, h2, h3]

theorem FS.WF.start {fs : FS} (h : fs.WF) (p : GoString) : fs.node (fs.start p) = some .dir := by
  unfold FS.start
  split
  · exact h.1
  · exact h.2.1

theorem FS.WF.above {fs : FS} (h : fs.WF) (l : Loc) : ∀ (t : List GoString),
    fs.node (l ++ t) ≠ none → t ≠ [] → fs.node l = some .dir := by
  intro t
  induction t using List.reverseRecOn with
  | nil => intro _ h2; exact absurd rfl h2
  | append_singleton t s ih =>
    intro h1 _
    rw [← List.append_assoc] at h1
    have h2 := h.2.2 _ _ h1
    by_cases ht : t = []
    · subst ht; simpa using h2
    · exact ih (by rw [h2]; simp) ht

theorem FS.WF.of_above {fs : FS} (h : fs.WF) {l k : Loc} (hk : fs.node k = some .dir)
    (hl : l <+: k) : fs.node l = some .dir := by
  obtain ⟨t, rfl⟩ := hl
  by_cases ht : t = []
  · subst ht; simpa using hk
  · exact h.above l t (by rw [hk]; simp) ht

theorem FS.WF.dropLast {fs : FS} (h : fs.WF) {l : Loc} (hl : fs.node l = some .dir) :
    fs.node l.dropLast = some .dir :=
  h.of_above hl (List.dropLast_prefix l)

theorem FS.WF.set {fs : FS} (h : fs.WF) {l : Loc} {s : GoString} (x : Node)
    (hl : fs.node l = some .dir) (hs : fs.node (l ++ [s]) = none) : (fs.set (l ++ [s]) x).WF := by
  have hne : ∀ k, fs.node k = some .dir → k ≠ l ++ [s] := by
    intro k hk he
    rw [he, hs] at hk
    cases hk
  refine ⟨?_, ?_, ?_⟩
  · rw [FS.set_node_of_ne _ _ (hne _ h.1)]; exact h.1
  · rw [FS.set_cwd, FS.set_node_of_ne _ _ (hne _ h.2.1)]; exact h.2.1
  · intro k t hk
    by_cases hkt : k ++ [t] = l ++ [s]
    · have hkl : k = l := (List.append_inj' hkt rfl).1
      subst hkl
      rw [FS.set_node_of_ne _ _ (hne _ hl)]; exact hl
    · rw [FS.set_node_of_ne _ _ hkt] at hk
      have := h.2.2 k t hk
      rw [FS.set_node_of_ne _ _ (hne _ this)]; exact this

theorem foldl_stepLoc_extends (cs : List GoString) (h : ['.', '.'] ∉ cs) :
    ∀ (cur : Loc), cur <+: cs.foldl stepLoc cur := by
  induction cs with
  | nil => intro cur; exact List.prefix_refl _
  | cons c cs ih =>
    intro cur
    simp only [List.mem_cons, not_or] at h
    simp only [List.foldl_cons]
    refine List.IsPrefix.trans ?_ (ih h.2 _)
    unfold stepLoc
    split
    · exact List.prefix_refl _
    · rw [if_neg (fun hc => h.1 hc.symm)]
      exact List.prefix_append _ _

theorem mkdirWalk_exists {fs : FS} (hwf : fs.WF) (cs : List GoString) : ∀ (cur : Loc),
    descending cs → fs.node cur = some .dir → fs.node (cs.foldl stepLoc cur) = some .dir →
    mkdirWalk fs cur cs = (none, fs) := by
  induction cs with
  | nil => intro cur _ _ _; rfl
  | cons c cs ih =>
    intro cur hd hcur hfin
    rw [mkdirWalk]
    unfold descending at hd
    simp only [List.foldl_cons] at hfin
    split
    · next h1 =>
      rw [if_pos (by tauto)] at hd
      simp only [stepLoc, if_pos h1] at hfin
      exact ih cur hd hcur hfin
    · next h1 =>
      split
      · next h2 =>
        rw [if_pos (by tauto)] at hd
        simp only [stepLoc, if_neg h1, if_pos h2] at hfin
        exact ih _ hd (hwf.dropLast hcur) hfin
      · next h2 =>
        rw [if_neg (by tauto)] at hd
        simp only [stepLoc, if_neg h1, if_neg h2] at hfin
        have hc : fs.node (cur ++ [c]) = some .dir :=
          hwf.of_above hfin (foldl_stepLoc_extends cs hd _)
        simp only [hc]
        exact ih _ (descending_of_no_dotdot hd) hc hfin

theorem resolve_exists {fs : FS} (hwf : fs.WF) (cs : List GoString) : ∀ (cur : Loc),
    descending cs → fs.node cur = some .dir → fs.node (cs.foldl stepLoc cur) = some .dir →
    resolve fs cur cs = .ok (cs.foldl stepLoc cur) := by
  induction cs with
  | nil => intro cur _ _ _; rfl
  | cons c cs ih =>
    intro cur hd hcur hfin
    rw [resolve]
    simp only [hcur, List.foldl_cons]
    simp only [List.foldl_cons] at hfin
    apply ih _ _ _ hfin
    · unfold descending at hd
      split at hd
      · exact hd
      · exact descending_of_no_dotdot hd
    · unfold descending at hd
      unfold stepLoc at hfin ⊢
      split
      · exact hcur
      · next h1 =>
        split
        · exact hwf.dropLast hcur
        · next h2 =>
          rw [if_neg (by tauto)] at hd
          rw [if_neg h1, if_neg h2] at hfin
          exact hwf.of_above hfin (foldl_stepLoc_extends cs hd _)

theorem mkdirWalk_append (a b : List GoString) : ∀ (fs : FS) (cur : Loc),
    mkdirWalk fs cur (a ++ b) =
      match mkdirWalk fs cur a with
      | (some e, fs1) => (some e, fs1)
      | (none, fs1) => mkdirWalk fs1 (a.foldl stepLoc cur) b := by
  induction a with
  | nil => intro fs cur; simp [mkdirWalk]
  | cons c a ih =>
    intro fs cur
    simp only [List.cons_append, List.foldl_cons]
    rw [mkdirWalk, mkdirWalk]
    unfold stepLoc
    split
    · exact ih _ _
    · split
      · exact ih _ _
      · split
        · exact ih _ _
        · rfl
        · split
          · rfl
          · exact ih _ _

theorem resolve_append (fs : FS) (a b : List GoString) : ∀ (cur d : Loc),
    resolve fs cur a = .ok d → resolve fs cur (a ++ b) = resolve fs d b := by
  induction a with
  | nil =>
    intro cur d h
    simp only [resolve, Except.ok.injEq] at h
    subst h; rfl
  | cons c a ih =>
    intro cur d h
    simp only [List.cons_append]
    rw [resolve] at h ⊢
    split at h
    · exact ih _ _ h
    · cases h
    · cases h

theorem createDir_Join {fs : FS} (hwf : fs.WF) {p name : GoString} (hp : p ≠ [])
    (hn : plainSeg (baseName name)) (hR : fs.node (fs.locOf p) = some .dir) :
    createDir (Join p name) fs =
      match fs.node (fs.locOf p ++ [baseName name]) with
      | some .dir => (none, fs)
      | some (.file _) => (some (.createDir (Join p name) .notADirectory), fs)
      | none =>
        match fs.env.refuse (fs.locOf p ++ [baseName name]) with
        | some e => (some (.createDir (Join p name) e), fs)
        | none => (none, fs.set (fs.locOf p ++ [baseName name]) .dir) := by
  have hpre := mkdirWalk_exists hwf (prefixComps p) (fs.start p) (descending_prefixComps p)
    (hwf.start p) (by rw [foldl_prefixComps]; exact hR)
  unfold createDir MkdirAll
  rw [if_neg (Join_ne_nil name hp), comps_Join hp hn, start_Join fs name hp, mkdirWalk_append,
    hpre]
  simp only [foldl_prefixComps]
  obtain ⟨h1, h2, h3, _⟩ := hn
  rw [mkdirWalk]
  rw [if_neg (by simp [h1, h2]), if_neg h3]
  cases hnode : fs.node (fs.locOf p ++ [baseName name]) with
  | none =>
    simp only
    cases fs.env.refuse (fs.locOf p ++ [baseName name]) <;> simp [mkdirWalk]
  | some x => cases x <;> simp [mkdirWalk]

theorem dropLast_getLast_concat (a : List GoString) (n : GoString) :
    (a ++ [n]).dropLast = a ∧ ((a ++ [n]).getLast?).getD [] = n := by
  simp

theorem OpenFileExcl_Join {fs : FS} (hwf : fs.WF) {p name : GoString} (hp : p ≠ [])
    (hn : plainSeg (baseName name)) (hR : fs.node (fs.locOf p) = some .dir) :
    OpenFileExcl (Join p name) fs =
      match fs.node (fs.locOf p ++ [baseName name]) with
      | some _ => (.error .alreadyExists, fs)
      | none =>
        match fs.env.refuse (fs.locOf p ++ [baseName name]) with
        | some e => (.error e, fs)
        | none => (.ok (fs.locOf p ++ [baseName name]),
            fs.set (fs.locOf p ++ [baseName name]) (.file [])) := by
  have hpre := resolve_exists hwf (prefixComps p) (fs.start p) (descending_prefixComps p)
    (hwf.start p) (by rw [foldl_prefixComps]; exact hR)
  rw [foldl_prefixComps] at hpre
  unfold OpenFileExcl
  rw [if_neg (Join_ne_nil name hp), comps_Join hp hn, start_Join fs name hp]
  simp only [(dropLast_getLast_concat _ _).1, (dropLast_getLast_concat _ _).2, hpre, hR]
  obtain ⟨h1, h2, h3, _⟩ := hn
  rw [if_neg (by simp [h1, h2, h3])]

theorem locOf_congr {a b : FS} (h : a.env = b.env) (p : GoString) : b.locOf p = a.locOf p := by
  simp [FS.locOf, FS.start, FS.cwd, h]

theorem mkdirWalk_WF (cs : List GoString) : ∀ (fs : FS) (cur : Loc), fs.WF →
    fs.node cur = some .dir →
    (mkdirWalk fs cur cs).2.WF ∧
      ((mkdirWalk fs cur cs).1 = none →
        (mkdirWalk fs cur cs).2.node (cs.foldl stepLoc cur) = some .dir) := by
  induction cs with
  | nil => intro fs cur hwf hcur; exact ⟨hwf, fun _ => hcur⟩
  | cons c cs ih =>
    intro fs cur hwf hcur
    rw [mkdirWalk]
    simp only [List.foldl_cons]
    unfold stepLoc
    split
    · exact ih fs cur hwf hcur
    · split
      · exact ih fs _ hwf (hwf.dropLast hcur)
      · split
        · next hd => exact ih fs _ hwf hd
        · exact ⟨hwf, fun h => by cases h⟩
        · next hn =>
          split
          · exact ⟨hwf, fun h => by cases h⟩
          · exact ih _ _ (hwf.set .dir hcur hn) (FS.set_node_self _ _ _)

theorem mkdirWalk_new (cs : List GoString) : ∀ (fs : FS) (cur : Loc) (l : Loc),
    (mkdirWalk fs cur cs).2.node l ≠ fs.node l →
      fs.node l = none ∧ (mkdirWalk fs cur cs).2.node l = some .dir := by
  induction cs with
  | nil => intro fs cur l h; exact absurd rfl h
  | cons c cs ih =>
    intro fs cur l
    rw [mkdirWalk]
    split
    · exact ih fs cur l
    · split
      · exact ih fs _ l
      · split
        · exact ih fs _ l
        · intro h; exact absurd rfl h
        · next hn =>
          split
          · intro h; exact absurd rfl h
          · intro h
            by_cases hl : l = cur ++ [c]
            · subst hl
              refine ⟨hn, ?_⟩
              exact (mkdirWalk_le cs _ _).2 _ _ (FS.set_node_self _ _ _)
            · have h2 := ih (fs.set (cur ++ [c]) .dir) (cur ++ [c]) l
              rw [FS.set_node_of_ne _ _ hl] at h2
              exact h2 h

theorem createDir_snd (path : GoString) (fs : FS) : (createDir path fs).2 = (MkdirAll path fs).2 := by
  unfold createDir
  split <;> next h => rw [h]

theorem createDir_WF {path : GoString} {fs : FS} (hwf : fs.WF) : (createDir path fs).2.WF := by
  rw [createDir_snd]
  unfold MkdirAll
  split
  · exact hwf
  · exact (mkdirWalk_WF _ _ _ hwf (hwf.start path)).1

theorem createDir_new (path : GoString) (fs : FS) (l : Loc)
    (h : (createDir path fs).2.node l ≠ fs.node l) :
    fs.node l = none ∧ (createDir path fs).2.node l = some .dir := by
  rw [createDir_snd] at h ⊢
  unfold MkdirAll at h ⊢
  split
  · next hp => rw [if_pos hp] at h; exact absurd rfl h
  · next hp => rw [if_neg hp] at h; exact mkdirWalk_new _ _ _ _ h

theorem createDir_final {path : GoString} {fs fs1 : FS} (hwf : fs.WF)
    (h : createDir path fs = (none, fs1)) : fs1.node (fs.locOf path) = some .dir := by
  have h1 := createDir_eq_none h
  unfold MkdirAll at h1
  split at h1
  · cases h1
  · have := (mkdirWalk_WF (comps path) fs (fs.start path) hwf (hwf.start path)).2
    rw [h1] at this
    exact this rfl

theorem generateFile_frame {fs : FS} (hwf : fs.WF) {p name : GoString} (content : Content)
    (hp : p ≠ []) (hn : plainSeg (baseName name)) (hR : fs.node (fs.locOf p) = some .dir) :
    (generateFile p name content fs).2.WF ∧
      ∀ l, ¬ (fs.locOf p ++ [baseName name]) <+: l →
        (generateFile p name content fs).2.node l = fs.node l := by
  have hj := OpenFileExcl_Join hwf hp hn hR
  cases hnode : fs.node (fs.locOf p ++ [baseName name]) with
  | some x =>
    rw [hnode] at hj
    rw [generateFile_of_error content hj]
    exact ⟨hwf, fun _ _ => rfl⟩
  | none =>
    rw [hnode] at hj
    cases hr : fs.env.refuse (fs.locOf p ++ [baseName name]) with
    | some e =>
      rw [hr] at hj
      rw [generateFile_of_error content hj]
      exact ⟨hwf, fun _ _ => rfl⟩
    | none =>
      rw [hr] at hj
      have hne : ∀ l, ¬ (fs.locOf p ++ [baseName name]) <+: l →
          l ≠ fs.locOf p ++ [baseName name] := by
        intro l hl he
        exact hl (he ▸ List.prefix_refl _)
      obtain ⟨b, hb⟩ := generateFile_snd_of_ok content hj
      rw [hb]
      exact ⟨hwf.set _ hR hnode, fun l hl => FS.set_node_of_ne _ _ (hne l hl)⟩

theorem strict_of_below_concat {R l : Loc} {n : GoString} (h : (R ++ [n]) <+: l) :
    R <+: l ∧ l ≠ R := by
  refine ⟨List.IsPrefix.trans (List.prefix_append _ _) h, ?_⟩
  intro he
  subst he
  have := h.length_le
  simp at this

mutual
theorem generateDir_frame (p name : GoString) (content : Content) (fs : FS) (hwf : fs.WF)
    (hp : p ≠ []) (hn : plainSeg (baseName name)) (hc : plainContent content = true)
    (hR : fs.node (fs.locOf p) = some .dir) :
    (generateDir p name content fs).2.WF ∧
      ∀ l, ¬ (fs.locOf p ++ [baseName name]) <+: l →
        (generateDir p name content fs).2.node l = fs.node l := by
  rw [generateDir, createDir_Join hwf hp hn hR]
  have hne : ∀ l, ¬ (fs.locOf p ++ [baseName name]) <+: l →
      l ≠ fs.locOf p ++ [baseName name] := by
    intro l hl he
    exact hl (he ▸ List.prefix_refl _)
  have hloc := locOf_Join fs hp hn
  cases hnode : fs.node (fs.locOf p ++ [baseName name]) with
  | some x =>
    cases x with
    | file _ => exact ⟨hwf, fun _ _ => rfl⟩
    | dir =>
      match content with
      | .nil => exact ⟨hwf, fun _ _ => rfl⟩
      | .str _ => exact ⟨hwf, fun _ _ => rfl⟩
      | .other _ => exact ⟨hwf, fun _ _ => rfl⟩
      | .corn files =>
        rw [plainContent] at hc
        have ih := generateAll_frame (Join p name) files fs hwf (Join_ne_nil name hp) hc
          (by rw [hloc]; exact hnode)
        rw [hloc] at ih
        refine ⟨ih.1, fun l hl => ih.2 l (fun h => hl h.1)⟩
  | none =>
    cases hr : fs.env.refuse (fs.locOf p ++ [baseName name]) with
    | some e => exact ⟨hwf, fun _ _ => rfl⟩
    | none =>
      have hwf0 := hwf.set .dir hR hnode
      have hset : ∀ l, ¬ (fs.locOf p ++ [baseName name]) <+: l →
          (fs.set (fs.locOf p ++ [baseName name]) .dir).node l = fs.node l :=
        fun l hl => FS.set_node_of_ne _ _ (hne l hl)
      match content with
      | .nil => exact ⟨hwf0, hset⟩
      | .str _ => exact ⟨hwf0, hset⟩
      | .other _ => exact ⟨hwf0, hset⟩
      | .corn files =>
        rw [plainContent] at hc
        have hloc0 : (fs.set (fs.locOf p ++ [baseName name]) .dir).locOf (Join p name) =
            fs.locOf p ++ [baseName name] := hloc
        have ih := generateAll_frame (Join p name) files _ hwf0 (Join_ne_nil name hp) hc
          (by rw [hloc0]; exact FS.set_node_self _ _ _)
        rw [hloc0] at ih
        refine ⟨ih.1, fun l hl => ?_⟩
        have := ih.2 l (fun h => hl h.1)
        simp only at this ⊢
        rw [this, hset l hl]
theorem generateAll_frame (p : GoString) (files : List (GoString × Content)) (fs : FS)
    (hwf : fs.WF) (hp : p ≠ []) (hc : plainAll files = true)
    (hR : fs.node (fs.locOf p) = some .dir) :
    (generateAll p files fs).2.WF ∧
      ∀ l, ¬ (fs.locOf p <+: l ∧ l ≠ fs.locOf p) →
        (generateAll p files fs).2.node l = fs.node l := by
  match files with
  | [] => rw [generateAll]; exact ⟨hwf, fun _ _ => rfl⟩
  | (name, content) :: rest =>
    rw [plainAll] at hc
    simp only [Bool.and_eq_true, decide_eq_true_eq] at hc
    obtain ⟨⟨hn, hc1⟩, hc2⟩ := hc
    have h1 : (generate p name content fs).2.WF ∧
        ∀ l, ¬ (fs.locOf p ++ [baseName name]) <+: l →
          (generate p name content fs).2.node l = fs.node l := by
      unfold generate
      split
      · exact generateDir_frame p name content fs hwf hp hn hc1 hR
      · exact generateFile_frame hwf content hp hn hR
    have hle := generate_le p name content fs
    rw [generateAll_cons]
    split
    · next e fs1 h =>
      rw [h] at h1
      exact ⟨h1.1, fun l hl => h1.2 l (fun hh => hl (strict_of_below_concat hh))⟩
    · next fs1 h =>
      rw [h] at h1 hle
      have hloc1 : fs1.locOf p = fs.locOf p := locOf_congr hle.1 p
      have ih := generateAll_frame p rest fs1 h1.1 hp hc2
        (by rw [hloc1]; exact hle.2 _ _ hR)
      rw [hloc1] at ih
      refine ⟨ih.1, fun l hl => ?_⟩
      rw [ih.2 l hl]
      exact h1.2 l (fun hh => hl (strict_of_below_concat hh))
end

theorem generate_frame (p name : GoString) (content : Content) (fs : FS) (hwf : fs.WF)
    (hp : p ≠ []) (hn : plainSeg (baseName name)) (hc : plainContent content = true)
    (hR : fs.node (fs.locOf p) = some .dir) :
    (generate p name content fs).2.WF ∧
      ∀ l, ¬ (fs.locOf p ++ [baseName name]) <+: l →
        (generate p name content fs).2.node l = fs.node l := by
  unfold generate
  split
  · exact generateDir_frame p name content fs hwf hp hn hc hR
  · exact generateFile_frame hwf content hp hn hR

theorem mkdirWalk_changed (cs : List GoString) : ∀ (fs : FS) (cur : Loc) (l : Loc),
    descending cs → (mkdirWalk fs cur cs).2.node l ≠ fs.node l → l <+: cs.foldl stepLoc cur := by
  induction cs with
  | nil => intro fs cur l _ h; exact absurd rfl h
  | cons c cs ih =>
    intro fs cur l hd
    rw [mkdirWalk]
    simp only [List.foldl_cons]
    unfold descending at hd
    unfold stepLoc
    split
    · next h1 =>
      rw [if_pos (by tauto)] at hd
      exact ih fs cur l hd
    · next h1 =>
      split
      · next h2 =>
        rw [if_pos (by tauto)] at hd
        exact ih fs _ l hd
      · next h2 =>
        rw [if_neg (by tauto)] at hd
        split
        · exact ih fs _ l (descending_of_no_dotdot hd)
        · intro h; exact absurd rfl h
        · split
          · intro h; exact absurd rfl h
          · intro h
            by_cases hl : l = cur ++ [c]
            · subst hl
              exact foldl_stepLoc_extends cs hd _
            · have h2 := ih (fs.set (cur ++ [c]) .dir) (cur ++ [c]) l
                (descending_of_no_dotdot hd)
              rw [FS.set_node_of_ne _ _ hl] at h2
              exact h2 h

theorem resolve_eq_foldl (fs : FS) (cs : List GoString) : ∀ (cur l : Loc),
    resolve fs cur cs = .ok l → l = cs.foldl stepLoc cur := by
  induction cs with
  | nil =>
    intro cur l h
    simp only [resolve, Except.ok.injEq] at h
    exact h.symm
  | cons c cs ih =>
    intro cur l h
    rw [resolve] at h
    split at h
    · exact ih _ _ h
    · cases h
    · cases h

theorem descending_comps_Join (parent name : GoString) : descending (comps (Join parent name)) := by
  unfold Join
  split
  · split
    · simp [comps_nil, descending]
    · exact descending_comps_Clean _
  · exact descending_comps_Clean _

theorem Stat_of_dir {fs : FS} (hwf : fs.WF) {path : GoString} (hp : path ≠ [])
    (hd : descending (comps path)) (h : fs.node (fs.locOf path) = some .dir) :
    Stat path fs = .ok .dir := by
  unfold Stat
  rw [if_neg hp, resolve_exists hwf (comps path) (fs.start path) hd (hwf.start path) h]
  have h' : fs.node (List.foldl stepLoc (fs.start path) (comps path)) = some .dir := h
  simp only [h']

theorem generateDir_notTree {parent name : GoString} {content : Content} {fs fs1 : FS}
    (hbad : notTree content = true) (hmk : createDir (Join parent name) fs = (none, fs1)) :
    generateDir parent name content fs = (some (.dirContent content.typeName), fs1) := by
  rw [generateDir, hmk]
  cases content with
  | nil => simp [notTree] at hbad
  | corn _ => simp [notTree] at hbad
  | str _ => rfl
  | other _ => rfl

theorem generateDir_kind {parent name : GoString} {content : Content} {fs fs1 : FS}
    {e : PopError} (hbad : notTree content = true)
    (h : generateDir parent name content fs = (some e, fs1))
    (hk : e.kind = .StructuralTypeError) : e = .dirContent content.typeName := by
  rw [generateDir] at h
  split at h
  · next e1 fs0 h0 =>
    simp only [Prod.mk.injEq, Option.some.injEq] at h
    obtain ⟨rfl, _⟩ := h
    unfold createDir at h0
    split at h0
    · simp only [Prod.mk.injEq, Option.some.injEq] at h0
      obtain ⟨rfl, _⟩ := h0
      simp [PopError.kind] at hk
    · simp at h0
  · cases content with
    | nil => simp [notTree] at hbad
    | corn _ => simp [notTree] at hbad
    | str _ =>
      simp only [Prod.mk.injEq, Option.some.injEq] at h
      exact h.1.symm
    | other _ =>
      simp only [Prod.mk.injEq, Option.some.injEq] at h
      exact h.1.symm

theorem generateFile_kind {parent name : GoString} {content : Content} {fs fs1 : FS}
    {e : PopError} (h : generateFile parent name content fs = (some e, fs1))
    (hk : e.kind = .StructuralTypeError) : e = .fileContent (Join parent name) := by
  cases ho : OpenFileExcl (Join parent name) fs with
  | mk r fs0 =>
    cases r with
    | error e0 =>
      rw [generateFile_of_error content ho] at h
      simp only [Prod.mk.injEq, Option.some.injEq] at h
      obtain ⟨rfl, _⟩ := h
      simp [PopError.kind] at hk
    | ok f =>
      rw [generateFile_of_ok content ho] at h
      cases content with
      | nil => simp at h
      | str text =>
        simp only at h
        cases hw : fs.env.refuseWrite f with
        | none => rw [hw] at h; simp at h
        | some x =>
          rw [hw] at h
          simp only [Prod.mk.injEq, Option.some.injEq] at h
          obtain ⟨rfl, _⟩ := h
          simp [PopError.kind] at hk
      | corn _ =>
        simp only [Prod.mk.injEq, Option.some.injEq] at h
        exact h.1.symm
      | other _ =>
        simp only [Prod.mk.injEq, Option.some.injEq] at h
        exact h.1.symm

theorem FS.init_WF (cwd : Loc) : (FS.init cwd).WF := by
  refine ⟨?_, ?_, ?_⟩
  · simp [FS.init]
  · simp [FS.init]
  · intro l s h
    simp only [FS.init, ne_eq, ite_eq_right_iff, not_forall, exists_prop,
      List.isPrefixOf_iff_prefix] at h ⊢
    simp only [reduceCtorEq, not_false_eq_true, and_true] at h
    rw [if_pos (List.IsPrefix.trans (List.prefix_append _ _) h)]

theorem createDir_changed {path : GoString} {fs : FS} {l : Loc} (hd : descending (comps path))
    (h : (createDir path fs).2.node l ≠ fs.node l) : l <+: fs.locOf path := by
  rw [createDir_snd] at h
  unfold MkdirAll at h
  split at h
  · exact absurd rfl h
  · exact mkdirWalk_changed _ _ _ _ hd h

theorem createDir_path_ne_nil {path : GoString} {fs fs1 : FS}
    (h : createDir path fs = (none, fs1)) : path ≠ [] := by
  intro hp
  subst hp
  simp [createDir, MkdirAll] at h

theorem expectAll_of_not_mem (files : List (GoString × Content)) (seg : GoString) (rel : Loc)
    (h : seg ∉ files.map (fun e => baseName e.1)) : expectAll files (seg :: rel) = none := by
  induction files with
  | nil => rw [expectAll]
  | cons e rest ih =>
    obtain ⟨name, content⟩ := e
    simp only [List.map_cons, List.mem_cons, not_or] at h
    rw [expectAll, if_neg h.1]
    exact ih h.2

theorem FS.WF.none_beneath {fs : FS} (hwf : fs.WF) {l : Loc} (h : fs.node l = none)
    (rel : Loc) : fs.node (l ++ rel) = none := by
  by_cases hr : rel = []
  · subst hr; simpa using h
  · by_contra hne
    have := hwf.above l rel hne hr
    rw [h] at this
    cases this

theorem concat_below_cons {R : Loc} {n seg : GoString} {rel : Loc}
    (h : (R ++ [n]) <+: (R ++ seg :: rel)) : n = seg := by
  obtain ⟨t, ht⟩ := h
  rw [List.append_assoc] at ht
  have := List.append_cancel_left ht
  simp only [List.singleton_append, List.cons.injEq] at this
  exact this.1

theorem ne_self_concat (R : Loc) (n : GoString) : R ≠ R ++ [n] := by
  intro h
  have := congrArg List.length h
  simp at this

theorem allows_congr {a b : FS} (h : a.env = b.env) {l : Loc} (ha : a.allows l) : b.allows l := by
  unfold FS.allows at ha ⊢
  rw [← h]
  exact ha

theorem expectEntry_nil_isSome (isDir : Bool) (content : Content) :
    (expectEntry isDir content []).isSome = true := by
  cases content <;> simp [expectEntry]

theorem generateFile_exact {fs : FS} (hwf : fs.WF) {p name : GoString} {content : Content}
    (hp : p ≠ []) (hn : plainSeg (baseName name)) (hR : fs.node (fs.locOf p) = some .dir)
    (hfree : fs.node (fs.locOf p ++ [baseName name]) = none)
    (ha : fs.allows (fs.locOf p ++ [baseName name]))
    (ht : wellTyped false content = true) :
    (generateFile p name content fs).1 = none ∧
      ∀ rel, (generateFile p name content fs).2.node (fs.locOf p ++ baseName name :: rel) =
        expectEntry false content rel := by
  have hj := OpenFileExcl_Join hwf hp hn hR
  rw [hfree, ha.1] at hj
  simp only at hj
  rw [generateFile_of_ok content hj]
  have hb : ∀ (x : Node) (rel : Loc), rel ≠ [] →
      (fs.set (fs.locOf p ++ [baseName name]) x).node (fs.locOf p ++ baseName name :: rel)
        = none := by
    intro x rel hrel
    rw [FS.set_node_of_ne]
    · have := hwf.none_beneath hfree rel
      simpa using this
    · intro h
      rw [List.append_right_inj] at h
      simp only [List.cons.injEq, true_and] at h
      exact hrel h
  cases content with
  | nil =>
    refine ⟨rfl, fun rel => ?_⟩
    cases rel with
    | nil => simp [expectEntry]
    | cons s rel => simp only; rw [hb _ _ (by simp)]; simp [expectEntry]
  | str text =>
    simp only [ha.2]
    refine ⟨trivial, fun rel => ?_⟩
    cases rel with
    | nil => simp [expectEntry]
    | cons s rel => rw [hb _ _ (by simp)]; simp [expectEntry]
  | corn _ => simp [wellTyped] at ht
  | other _ => simp [wellTyped] at ht

mutual
theorem generateDir_exact (p name : GoString) (content : Content) (fs : FS) (hwf : fs.WF)
    (hp : p ≠ []) (hn : plainSeg (baseName name)) (hR : fs.node (fs.locOf p) = some .dir)
    (hfree : fs.node (fs.locOf p ++ [baseName name]) = none)
    (ha : ∀ rel, (expectEntry true content rel).isSome = true →
      fs.allows (fs.locOf p ++ baseName name :: rel))
    (ht : wellTyped true content = true) (hc : plainContent content = true)
    (hd : distinctContent content = true) :
    (generateDir p name content fs).1 = none ∧
      ∀ rel, (generateDir p name content fs).2.node (fs.locOf p ++ baseName name :: rel) =
        expectEntry true content rel := by
  have ha0 := (ha [] (expectEntry_nil_isSome true content)).1
  rw [generateDir, createDir_Join hwf hp hn hR, hfree, ha0]
  have hwf0 := hwf.set .dir hR hfree
  have hb : ∀ (rel : Loc), rel ≠ [] →
      (fs.set (fs.locOf p ++ [baseName name]) .dir).node (fs.locOf p ++ baseName name :: rel)
        = none := by
    intro rel hrel
    rw [FS.set_node_of_ne]
    · have := hwf.none_beneath hfree rel
      simpa using this
    · intro h
      rw [List.append_right_inj] at h
      simp only [List.cons.injEq, true_and] at h
      exact hrel h
  match content with
  | .nil =>
    refine ⟨rfl, fun rel => ?_⟩
    cases rel with
    | nil => simp [expectEntry]
    | cons s rel => simp only; rw [hb _ (by simp)]; simp [expectEntry]
  | .str _ => simp [wellTyped] at ht
  | .other _ => simp [wellTyped] at ht
  | .corn files =>
    rw [wellTyped] at ht
    simp only [Bool.true_and] at ht
    rw [plainContent] at hc
    rw [distinctContent] at hd
    have hloc0 : (fs.set (fs.locOf p ++ [baseName name]) .dir).locOf (Join p name) =
        fs.locOf p ++ [baseName name] := locOf_Join fs hp hn
    have hR0 : (fs.set (fs.locOf p ++ [baseName name]) .dir).node
        ((fs.set (fs.locOf p ++ [baseName name]) .dir).locOf (Join p name)) = some .dir := by
      rw [hloc0]; exact FS.set_node_self _ _ _
    have hfree0 : ∀ e ∈ files, (fs.set (fs.locOf p ++ [baseName name]) .dir).node
        ((fs.set (fs.locOf p ++ [baseName name]) .dir).locOf (Join p name) ++ [baseName e.1])
          = none := by
      intro e _
      rw [hloc0]
      have := hb [baseName e.1] (by simp)
      simpa using this
    have ha1 : ∀ seg rel, (expectAll files (seg :: rel)).isSome = true →
        (fs.set (fs.locOf p ++ [baseName name]) .dir).allows
          ((fs.set (fs.locOf p ++ [baseName name]) .dir).locOf (Join p name) ++ seg :: rel) := by
      intro seg rel hs
      rw [hloc0]
      have := ha (seg :: rel) (by rw [expectEntry]; simpa using hs)
      simpa [FS.allows, FS.set] using this
    have ih := generateAll_exact (Join p name) files _ hwf0 (Join_ne_nil name hp) hR0 hfree0
      ha1 ht hc hd
    have hfr := generateAll_frame (Join p name) files _ hwf0 (Join_ne_nil name hp) hc hR0
    rw [hloc0] at ih hfr
    refine ⟨ih.1, fun rel => ?_⟩
    cases rel with
    | nil =>
      simp only
      rw [hfr.2 _ (fun h => h.2 rfl), FS.set_node_self]
      simp [expectEntry]
    | cons s rel =>
      have h1 := ih.2 s rel
      simp only [List.append_assoc, List.singleton_append] at h1
      simp only
      rw [h1, hb _ (by simp)]
      rw [expectEntry]
      simp only [if_true]
      cases expectAll files (s :: rel) <;> rfl
theorem generateAll_exact (p : GoString) (files : List (GoString × Content)) (fs : FS)
    (hwf : fs.WF) (hp : p ≠ []) (hR : fs.node (fs.locOf p) = some .dir)
    (hfree : ∀ e ∈ files, fs.node (fs.locOf p ++ [baseName e.1]) = none)
    (ha : ∀ seg rel, (expectAll files (seg :: rel)).isSome = true →
      fs.allows (fs.locOf p ++ seg :: rel))
    (ht : wellTypedAll files = true) (hc : plainAll files = true)
    (hd : distinctAll files = true) :
    (generateAll p files fs).1 = none ∧
      ∀ seg rel, (generateAll p files fs).2.node (fs.locOf p ++ seg :: rel) =
        match expectAll files (seg :: rel) with
        | some x => some x
        | none => fs.node (fs.locOf p ++ seg :: rel) := by
  match files with
  | [] =>
    rw [generateAll]
    refine ⟨rfl, fun seg rel => ?_⟩
    rw [expectAll]
  | (name, content) :: rest =>
    rw [wellTypedAll] at ht
    rw [plainAll] at hc
    rw [distinctAll] at hd
    simp only [Bool.and_eq_true, decide_eq_true_eq] at ht hc hd
    obtain ⟨ht1, ht2⟩ := ht
    obtain ⟨⟨hn, hc1⟩, hc2⟩ := hc
    obtain ⟨⟨hd0, hd1⟩, hd2⟩ := hd
    have hfree1 := hfree (name, content) (List.mem_cons_self _ _)
    simp only at hfree1
    have ha1 : ∀ rel, (expectEntry (isDirName name) content rel).isSome = true →
        fs.allows (fs.locOf p ++ baseName name :: rel) := by
      intro rel hs
      apply ha
      rw [expectAll, if_pos rfl]
      exact hs
    have h1 : (generate p name content fs).1 = none ∧
        ∀ rel, (generate p name content fs).2.node (fs.locOf p ++ baseName name :: rel) =
          expectEntry (isDirName name) content rel := by
      unfold generate
      split
      · next hdir =>
        rw [hdir] at ht1 ha1 ⊢
        exact generateDir_exact p name content fs hwf hp hn hR hfree1 ha1 ht1 hc1 hd1
      · next hdir =>
        simp only [Bool.not_eq_true] at hdir
        rw [hdir] at ht1 ⊢
        exact generateFile_exact hwf hp hn hR hfree1
          (ha1 [] (expectEntry_nil_isSome _ _)) ht1
    have hfr := generate_frame p name content fs hwf hp hn hc1 hR
    have hle := generate_le p name content fs
    rw [generateAll_cons]
    split
    · next e fs1 h => rw [h] at h1; cases h1.1
    · next fs1 h =>
      rw [h] at h1 hfr hle
      simp only at h1 hfr hle
      have hloc1 : fs1.locOf p = fs.locOf p := locOf_congr hle.1 p
      have hR1 : fs1.node (fs1.locOf p) = some .dir := by
        rw [hloc1]; exact hle.2 _ _ hR
      have hout : ∀ seg rel, seg ≠ baseName name →
          fs1.node (fs.locOf p ++ seg :: rel) = fs.node (fs.locOf p ++ seg :: rel) := by
        intro seg rel hseg
        exact hfr.2 _ (fun hh => hseg (concat_below_cons hh).symm)
      have hfree' : ∀ e ∈ rest, fs1.node (fs1.locOf p ++ [baseName e.1]) = none := by
        intro e he
        rw [hloc1, hout _ _ ?_]
        · exact hfree e (List.mem_cons_of_mem _ he)
        · intro heq
          exact hd0 (List.mem_map.2 ⟨e, he, heq⟩)
      have ha' : ∀ seg rel, (expectAll rest (seg :: rel)).isSome = true →
          fs1.allows (fs1.locOf p ++ seg :: rel) := by
        intro seg rel hs
        rw [hloc1]
        apply allows_congr hle.1
        apply ha
        rw [expectAll]
        by_cases hseg : seg = baseName name
        · subst hseg
          rw [expectAll_of_not_mem rest _ rel hd0] at hs
          cases hs
        · rw [if_neg hseg]
          exact hs
      have ih := generateAll_exact p rest fs1 hfr.1 hp hR1 hfree' ha' ht2 hc2 hd2
      rw [hloc1] at ih
      refine ⟨ih.1, fun seg rel => ?_⟩
      rw [ih.2 seg rel, expectAll]
      by_cases hseg : seg = baseName name
      · subst hseg
        rw [if_pos rfl, expectAll_of_not_mem rest _ rel hd0, h1.2 rel]
        have hnone : fs.node (fs.locOf p ++ baseName name :: rel) = none := by
          have := hwf.none_beneath hfree1 rel
          simpa using this
        rw [hnone]
        cases expectEntry (isDirName name) content rel <;> rfl
      · rw [if_neg hseg, hout seg rel hseg]
end

theorem plainAll_iff (files : List (GoString × Content)) :
    plainAll files = true ↔
      ∀ e ∈ files, plainSeg (baseName e.1) ∧ plainContent e.2 = true := by
  induction files with
  | nil => simp [plainAll]
  | cons e rest ih =>
    obtain ⟨name, content⟩ := e
    rw [plainAll]
    simp only [Bool.and_eq_true, decide_eq_true_eq, List.mem_cons, forall_eq_or_imp, ih,
      and_assoc]

theorem nodupKeys_iff (files : List (GoString × Content)) :
    nodupKeys files = true ↔
      (files.map Prod.fst).Nodup ∧ ∀ e ∈ files, nodupContent e.2 = true := by
  induction files with
  | nil => simp [nodupKeys]
  | cons e rest ih =>
    obtain ⟨name, content⟩ := e
    rw [nodupKeys]
    simp only [Bool.and_eq_true, decide_eq_true_eq, List.mem_cons, forall_eq_or_imp, ih,
      List.map_cons, List.nodup_cons]
    tauto

theorem generateAll_append (p : GoString) (a b : Corn) : ∀ (fs : FS),
    generateAll p (a ++ b) fs =
      match generateAll p a fs with
      | (some e, fs1) => (some e, fs1)
      | (none, fs1) => generateAll p b fs1 := by
  induction a with
  | nil => intro fs; simp [generateAll_nil]
  | cons x a ih =>
    intro fs
    obtain ⟨n, c⟩ := x
    rw [List.cons_append, generateAll_cons, generateAll_cons]
    split
    · rfl
    · exact ih _

theorem generateFile_local {fs gs : FS} (hwf : fs.WF) (hwg : gs.WF) (hcwd : fs.env = gs.env)
    {p name : GoString} (content : Content) (hp : p ≠ []) (hn : plainSeg (baseName name))
    (hR : fs.node (fs.locOf p) = some .dir) (hRg : gs.node (fs.locOf p) = some .dir)
    (hag : ∀ l, (fs.locOf p ++ [baseName name]) <+: l → fs.node l = gs.node l) :
    (generateFile p name content fs).1 = (generateFile p name content gs).1 ∧
      ∀ l, (fs.locOf p ++ [baseName name]) <+: l →
        (generateFile p name content fs).2.node l = (generateFile p name content gs).2.node l := by
  have hloc : gs.locOf p = fs.locOf p := locOf_congr hcwd p
  have hg := OpenFileExcl_Join hwg hp hn (by rw [hloc]; exact hRg)
  have hf := OpenFileExcl_Join hwf hp hn hR
  rw [hloc, ← hag _ (List.prefix_refl _), ← hcwd] at hg
  have hset : ∀ (x : Node) (l : Loc), (fs.locOf p ++ [baseName name]) <+: l →
      (fs.set (fs.locOf p ++ [baseName name]) x).node l =
        (gs.set (fs.locOf p ++ [baseName name]) x).node l := by
    intro x l hl
    simp only [FS.set]
    split
    · rfl
    · exact hag l hl
  cases hnode : fs.node (fs.locOf p ++ [baseName name]) with
  | some x =>
    rw [hnode] at hf hg
    rw [generateFile_of_error content hf, generateFile_of_error content hg]
    exact ⟨rfl, hag⟩
  | none =>
    rw [hnode] at hf hg
    cases hr : fs.env.refuse (fs.locOf p ++ [baseName name]) with
    | some e =>
      rw [hr] at hf hg
      rw [generateFile_of_error content hf, generateFile_of_error content hg]
      exact ⟨rfl, hag⟩
    | none =>
      rw [hr] at hf hg
      rw [generateFile_of_ok content hf, generateFile_of_ok content hg, ← hcwd]
      cases content with
      | nil => exact ⟨rfl, hset _⟩
      | str text =>
        simp only
        cases fs.env.refuseWrite (fs.locOf p ++ [baseName name]) with
        | none => exact ⟨rfl, hset _⟩
        | some x => exact ⟨rfl, hset _⟩
      | corn _ => exact ⟨rfl, hset _⟩
      | other _ => exact ⟨rfl, hset _⟩

mutual
theorem generateDir_local (p name : GoString) (content : Content) (fs gs : FS) (hwf : fs.WF)
    (hwg : gs.WF) (hcwd : fs.env = gs.env) (hp : p ≠ []) (hn : plainSeg (baseName name))
    (hc : plainContent content = true)
    (hR : fs.node (fs.locOf p) = some .dir) (hRg : gs.node (fs.locOf p) = some .dir)
    (hag : ∀ l, (fs.locOf p ++ [baseName name]) <+: l → fs.node l = gs.node l) :
    (generateDir p name content fs).1 = (generateDir p name content gs).1 ∧
      ∀ l, (fs.locOf p ++ [baseName name]) <+: l →
        (generateDir p name content fs).2.node l = (generateDir p name content gs).2.node l := by
  have hloc : gs.locOf p = fs.locOf p := locOf_congr hcwd p
  have hg := createDir_Join hwg hp hn (by rw [hloc]; exact hRg)
  rw [hloc, ← hcwd] at hg
  rw [generateDir, generateDir, createDir_Join hwf hp hn hR, hg, ← hag _ (List.prefix_refl _)]
  have hlj := locOf_Join fs hp hn
  cases hnode : fs.node (fs.locOf p ++ [baseName name]) with
  | some x =>
    have hnodeg : gs.node (fs.locOf p ++ [baseName name]) = some x := by
      rw [← hag _ (List.prefix_refl _)]; exact hnode
    cases x with
    | file _ => exact ⟨rfl, hag⟩
    | dir =>
      match content with
      | .nil => exact ⟨rfl, hag⟩
      | .str _ => exact ⟨rfl, hag⟩
      | .other _ => exact ⟨rfl, hag⟩
      | .corn files =>
        rw [plainContent] at hc
        have ih := generateAll_local (Join p name) files fs gs hwf hwg hcwd (Join_ne_nil name hp)
          hc (by rw [hlj]; exact hnode) (by rw [hlj]; exact hnodeg)
          (by
            intro seg rel
            rw [hlj]
            exact hag _ (List.prefix_append _ _))
        have hf := generateAll_frame (Join p name) files fs hwf (Join_ne_nil name hp) hc
          (by rw [hlj]; exact hnode)
        have hfg := generateAll_frame (Join p name) files gs hwg (Join_ne_nil name hp) hc
          (by rw [locOf_congr hcwd, hlj]; exact hnodeg)
        rw [locOf_congr hcwd] at hfg
        rw [hlj] at ih hf hfg
        refine ⟨ih.1, fun l hl => ?_⟩
        obtain ⟨t, rfl⟩ := hl
        cases t with
        | nil =>
          simp only [List.append_nil]
          rw [hf.2 _ (fun h => h.2 rfl), hfg.2 _ (fun h => h.2 rfl), hnode, hnodeg]
        | cons seg rel => exact ih.2 seg rel
  | none =>
    have hnodeg : gs.node (fs.locOf p ++ [baseName name]) = none := by
      rw [← hag _ (List.prefix_refl _)]; exact hnode
    have hset : ∀ (l : Loc), (fs.locOf p ++ [baseName name]) <+: l →
        (fs.set (fs.locOf p ++ [baseName name]) .dir).node l =
          (gs.set (fs.locOf p ++ [baseName name]) .dir).node l := by
      intro l hl
      simp only [FS.set]
      split
      · rfl
      · exact hag l hl
    cases hr : fs.env.refuse (fs.locOf p ++ [baseName name]) with
    | some e => exact ⟨rfl, hag⟩
    | none =>
      match content with
      | .nil => exact ⟨rfl, hset⟩
      | .str _ => exact ⟨rfl, hset⟩
      | .other _ => exact ⟨rfl, hset⟩
      | .corn files =>
        rw [plainContent] at hc
        have hwf0 := hwf.set .dir hR hnode
        have hwg0 := hwg.set .dir hRg hnodeg
        have hlj0 : (fs.set (fs.locOf p ++ [baseName name]) .dir).locOf (Join p name) =
            fs.locOf p ++ [baseName name] := hlj
        have hlg0 : (gs.set (fs.locOf p ++ [baseName name]) .dir).locOf (Join p name) =
            fs.locOf p ++ [baseName name] := by
          rw [← hlj]; exact locOf_congr hcwd _
        have ih := generateAll_local (Join p name) files _ _ hwf0 hwg0 hcwd (Join_ne_nil name hp)
          hc (by rw [hlj0]; exact FS.set_node_self _ _ _)
          (by rw [hlj0]; exact FS.set_node_self _ _ _)
          (by
            intro seg rel
            rw [hlj0]
            exact hset _ (List.prefix_append _ _))
        have hf := generateAll_frame (Join p name) files _ hwf0 (Join_ne_nil name hp) hc
          (by rw [hlj0]; exact FS.set_node_self _ _ _)
        have hfg := generateAll_frame (Join p name) files _ hwg0 (Join_ne_nil name hp) hc
          (by rw [hlg0]; exact FS.set_node_self _ _ _)
        rw [hlg0] at hfg
        rw [hlj0] at ih hf
        refine ⟨ih.1, fun l hl => ?_⟩
        obtain ⟨t, rfl⟩ := hl
        cases t with
        | nil =>
          simp only [List.append_nil]
          rw [hf.2 _ (fun h => h.2 rfl), hfg.2 _ (fun h => h.2 rfl), FS.set_node_self,
            FS.set_node_self]
        | cons seg rel => exact ih.2 seg rel
theorem generateAll_local (p : GoString) (files : List (GoString × Content)) (fs gs : FS)
    (hwf : fs.WF) (hwg : gs.WF) (hcwd : fs.env = gs.env) (hp : p ≠ [])
    (hc : plainAll files = true)
    (hR : fs.node (fs.locOf p) = some .dir) (hRg : gs.node (fs.locOf p) = some .dir)
    (hag : ∀ seg rel, fs.node (fs.locOf p ++ seg :: rel) = gs.node (fs.locOf p ++ seg :: rel)) :
    (generateAll p files fs).1 = (generateAll p files gs).1 ∧
      ∀ seg rel, (generateAll p files fs).2.node (fs.locOf p ++ seg :: rel) =
        (generateAll p files gs).2.node (fs.locOf p ++ seg :: rel) := by
  match files with
  | [] => rw [generateAll, generateAll]; exact ⟨rfl, hag⟩
  | (name, content) :: rest =>
    rw [plainAll] at hc
    simp only [Bool.and_eq_true, decide_eq_true_eq] at hc
    obtain ⟨⟨hn, hc1⟩, hc2⟩ := hc
    have hag1 : ∀ l, (fs.locOf p ++ [baseName name]) <+: l → fs.node l = gs.node l := by
      intro l hl
      obtain ⟨t, rfl⟩ := hl
      rw [List.append_assoc]
      exact hag _ _
    have h1 : (generate p name content fs).1 = (generate p name content gs).1 ∧
        ∀ l, (fs.locOf p ++ [baseName name]) <+: l →
          (generate p name content fs).2.node l = (generate p name content gs).2.node l := by
      unfold generate
      split
      · exact generateDir_local p name content fs gs hwf hwg hcwd hp hn hc1 hR hRg hag1
      · exact generateFile_local hwf hwg hcwd content hp hn hR hRg hag1
    have hloc : gs.locOf p = fs.locOf p := locOf_congr hcwd p
    have hf := generate_frame p name content fs hwf hp hn hc1 hR
    have hfg := generate_frame p name content gs hwg hp hn hc1 (by rw [hloc]; exact hRg)
    rw [hloc] at hfg
    have hle := generate_le p name content fs
    have hlg := generate_le p name content gs
    have hag2 : ∀ seg rel, (generate p name content fs).2.node (fs.locOf p ++ seg :: rel) =
        (generate p name content gs).2.node (fs.locOf p ++ seg :: rel) := by
      intro seg rel
      by_cases hpre : (fs.locOf p ++ [baseName name]) <+: (fs.locOf p ++ seg :: rel)
      · exact h1.2 _ hpre
      · rw [hf.2 _ hpre, hfg.2 _ hpre]; exact hag _ _
    rw [generateAll_cons, generateAll_cons]
    cases hx : generate p name content fs with
    | mk r1 fs1 =>
      cases hy : generate p name content gs with
      | mk r2 gs1 =>
        rw [hx, hy] at h1 hag2
        rw [hx] at hf hle
        rw [hy] at hfg hlg
        simp only at h1 hag2 hf hfg hle hlg
        obtain ⟨h1a, _⟩ := h1
        subst h1a
        cases r1 with
        | some e => exact ⟨rfl, hag2⟩
        | none =>
          simp only
          have hloc1 : fs1.locOf p = fs.locOf p := locOf_congr hle.1 p
          have ih := generateAll_local p rest fs1 gs1 hf.1 hfg.1
            (hle.1.symm.trans (hcwd.trans hlg.1)) hp hc2
            (by rw [hloc1]; exact hle.2 _ _ hR) (by rw [hloc1]; exact hlg.2 _ _ hRg)
            (by rw [hloc1]; exact hag2)
          rw [hloc1] at ih
          exact ih
end

theorem generate_local (p name : GoString) (content : Content) (fs gs : FS) (hwf : fs.WF)
    (hwg : gs.WF) (hcwd : fs.env = gs.env) (hp : p ≠ []) (hn : plainSeg (baseName name))
    (hc : plainContent content = true)
    (hR : fs.node (fs.locOf p) = some .dir) (hRg : gs.node (fs.locOf p) = some .dir)
    (hag : ∀ l, (fs.locOf p ++ [baseName name]) <+: l → fs.node l = gs.node l) :
    (generate p name content fs).1 = (generate p name content gs).1 ∧
      ∀ l, (fs.locOf p ++ [baseName name]) <+: l →
        (generate p name content fs).2.node l = (generate p name content gs).2.node l := by
  unfold generate
  split
  · exact generateDir_local p name content fs gs hwf hwg hcwd hp hn hc hR hRg hag
  · exact generateFile_local hwf hwg hcwd content hp hn hR hRg hag

theorem FS.ext_node {a b : FS} (hc : a.env = b.env) (hn : ∀ l, a.node l = b.node l) : a = b := by
  cases a
  cases b
  simp only [FS.mk.injEq]
  exact ⟨hc, funext hn⟩

theorem generate_success_node {fs fs1 : FS} (hwf : fs.WF) {p name : GoString} {content : Content}
    (hp : p ≠ []) (hn : plainSeg (baseName name)) (hR : fs.node (fs.locOf p) = some .dir)
    (h : generate p name content fs = (none, fs1)) :
    (isDirName name = true → fs1.node (fs.locOf p ++ [baseName name]) = some .dir) ∧
      (isDirName name = false →
        ∃ b, fs1.node (fs.locOf p ++ [baseName name]) = some (.file b)) := by
  unfold generate at h
  constructor
  · intro hd
    rw [if_pos hd, generateDir] at h
    split at h
    · cases h
    · next fs0 h0 =>
      have hfin := createDir_final hwf h0
      rw [locOf_Join fs hp hn] at hfin
      have hle : fs0.le fs1 := by
        cases content with
        | nil => simp only [Prod.mk.injEq, true_and] at h; subst h; exact FS.le_refl _
        | corn files =>
          have := generateAll_le (Join p name) files fs0
          simp only at h
          rw [h] at this
          exact this
        | str _ => simp at h
        | other _ => simp at h
      exact hle.2 _ _ hfin
  · intro hd
    rw [hd] at h
    simp only [Bool.false_eq_true, if_false] at h
    have hj := OpenFileExcl_Join hwf hp hn hR
    cases ho : OpenFileExcl (Join p name) fs with
    | mk r fs0 =>
      cases r with
      | error e => rw [generateFile_of_error content ho] at h; simp at h
      | ok f =>
        obtain ⟨b, hb⟩ := generateFile_snd_of_ok content ho
        rw [h] at hb
        simp only at hb
        have hf : f = fs.locOf p ++ [baseName name] := by
          rw [ho] at hj
          cases hnode : fs.node (fs.locOf p ++ [baseName name]) with
          | some x => rw [hnode] at hj; simp at hj
          | none =>
            rw [hnode] at hj
            cases hr : fs.env.refuse (fs.locOf p ++ [baseName name]) with
            | some e => rw [hr] at hj; simp at hj
            | none =>
              rw [hr] at hj
              simp only [Prod.mk.injEq, Except.ok.injEq] at hj
              exact hj.1
        subst hf
        rw [hb]
        exact ⟨b, FS.set_node_self _ _ _⟩

theorem generate_same_name_fails {fs1 : FS} (hwf : fs1.WF) {p nx ny : GoString}
    (cy : Content) (hp : p ≠ []) (hny : plainSeg (baseName ny))
    (hR : fs1.node (fs1.locOf p) = some .dir) (hne : nx ≠ ny) (hb : baseName nx = baseName ny)
    (hdir : isDirName nx = true → fs1.node (fs1.locOf p ++ [baseName nx]) = some .dir)
    (hfile : isDirName nx = false →
      ∃ b, fs1.node (fs1.locOf p ++ [baseName nx]) = some (.file b)) :
    (generate p ny cy fs1).1 ≠ none := by
  unfold generate
  by_cases hdy : isDirName ny = true
  · have hdx : isDirName nx = false := by
      by_contra hx
      simp only [Bool.not_eq_false] at hx
      apply hne
      rw [name_eq_of_isDirName hx, name_eq_of_isDirName hdy, hb]
    obtain ⟨b, hb1⟩ := hfile hdx
    rw [hb] at hb1
    rw [if_pos hdy, generateDir, createDir_Join hwf hp hny hR, hb1]
    simp
  · have hex : ∃ x, fs1.node (fs1.locOf p ++ [baseName ny]) = some x := by
      rw [← hb]
      by_cases hx : isDirName nx = true
      · exact ⟨_, hdir hx⟩
      · simp only [Bool.not_eq_true] at hx
        obtain ⟨b, hb1⟩ := hfile hx
        exact ⟨_, hb1⟩
    obtain ⟨x, hx⟩ := hex
    rw [if_neg hdy, generateFile, OpenFileExcl_Join hwf hp hny hR, hx]
    simp

theorem concat_below_disjoint {R l : Loc} {a b : GoString} (hab : a ≠ b)
    (h1 : (R ++ [a]) <+: l) : ¬ (R ++ [b]) <+: l := by
  intro h2
  obtain ⟨t, rfl⟩ := h1
  rw [List.append_assoc] at h2
  exact hab (concat_below_cons h2).symm

theorem generate_swap {fs fs1 fs2 : FS} (hwf : fs.WF) {p nx ny : GoString} {cx cy : Content}
    (hp : p ≠ []) (hR : fs.node (fs.locOf p) = some .dir)
    (hnx : plainSeg (baseName nx)) (hny : plainSeg (baseName ny))
    (hcx : plainContent cx = true) (hcy : plainContent cy = true) (hne : nx ≠ ny)
    (h1 : generate p nx cx fs = (none, fs1)) (h2 : generate p ny cy fs1 = (none, fs2)) :
    ∃ gs1, generate p ny cy fs = (none, gs1) ∧ generate p nx cx gs1 = (none, fs2) := by
  have hfx := generate_frame p nx cx fs hwf hp hnx hcx hR
  have hlx := generate_le p nx cx fs
  rw [h1] at hfx hlx
  simp only at hfx hlx
  have hloc1 : fs1.locOf p = fs.locOf p := locOf_congr hlx.1 p
  have hR1 : fs1.node (fs1.locOf p) = some .dir := by rw [hloc1]; exact hlx.2 _ _ hR
  have hbase : baseName nx ≠ baseName ny := by
    intro hb
    have hs := generate_success_node hwf hp hnx hR h1
    rw [← hloc1] at hs
    have := generate_same_name_fails hfx.1 cy hp hny hR1 hne hb hs.1 hs.2
    rw [h2] at this
    exact this rfl
  have hfy1 := generate_frame p ny cy fs1 hfx.1 hp hny hcy hR1
  have hly1 := generate_le p ny cy fs1
  rw [h2, hloc1] at hfy1
  rw [h2] at hly1
  simp only at hfy1 hly1
  -- the second entry, run first
  have hLy := generate_local p ny cy fs fs1 hwf hfx.1 hlx.1 hp hny hcy hR (hlx.2 _ _ hR)
    (fun l hl => (hfx.2 l (concat_below_disjoint hbase.symm hl)).symm)
  have hfy := generate_frame p ny cy fs hwf hp hny hcy hR
  have hly := generate_le p ny cy fs
  cases hg : generate p ny cy fs with
  | mk r gs1 =>
    rw [hg, h2] at hLy
    rw [hg] at hfy hly
    simp only at hLy hfy hly
    obtain ⟨hr, hagy⟩ := hLy
    subst hr
    refine ⟨gs1, rfl, ?_⟩
    -- the first entry, run second
    have hLx := generate_local p nx cx fs gs1 hwf hfy.1 hly.1 hp hnx hcx hR (hly.2 _ _ hR)
      (fun l hl => (hfy.2 l (concat_below_disjoint hbase hl)).symm)
    have hlocg : gs1.locOf p = fs.locOf p := locOf_congr hly.1 p
    have hfxg := generate_frame p nx cx gs1 hfy.1 hp hnx hcx (by rw [hlocg]; exact hly.2 _ _ hR)
    have hlxg := generate_le p nx cx gs1
    rw [hlocg] at hfxg
    cases hg2 : generate p nx cx gs1 with
    | mk r2 gs2 =>
      rw [hg2, h1] at hLx
      rw [hg2] at hfxg hlxg
      simp only at hLx hfxg hlxg
      obtain ⟨hr2, hagx⟩ := hLx
      subst hr2
      have : gs2 = fs2 := by
        apply FS.ext_node
        · exact hlxg.1.symm.trans (hly.1.symm.trans (hlx.1.trans hly1.1))
        · intro l
          by_cases hx : (fs.locOf p ++ [baseName nx]) <+: l
          · rw [← hagx l hx, hfy1.2 l (concat_below_disjoint hbase hx)]
          · rw [hfxg.2 l hx]
            by_cases hy : (fs.locOf p ++ [baseName ny]) <+: l
            · exact hagy l hy
            · rw [hfy.2 l hy, hfy1.2 l hy, hfx.2 l hx]
      rw [this]

theorem generateFile_corn_ne_none (p name : GoString) (files : List (GoString × Content))
    (fs : FS) : (generateFile p name (.corn files) fs).1 ≠ none := by
  unfold generateFile
  split <;> simp

theorem generateAll_pre {fs fs1 : FS} (hwf : fs.WF) {p : GoString} {pre : Corn} (hp : p ≠ [])
    (hc : plainAll pre = true) (hR : fs.node (fs.locOf p) = some .dir)
    (h : generateAll p pre fs = (none, fs1)) :
    fs1.WF ∧ fs1.node (fs1.locOf p) = some .dir := by
  have hf := generateAll_frame p pre fs hwf hp hc hR
  have hl := generateAll_le p pre fs
  rw [h] at hf hl
  exact ⟨hf.1, by rw [locOf_congr hl.1]; exact hl.2 _ _ hR⟩

theorem plain_nodup_swap {pre post : Corn} {x y : GoString × Content}
    (hc : plainAll (pre ++ x :: y :: post) = true)
    (hk : nodupKeys (pre ++ x :: y :: post) = true) :
    plainAll (pre ++ y :: x :: post) = true ∧ nodupKeys (pre ++ y :: x :: post) = true := by
  have hperm : (pre ++ x :: y :: post).Perm (pre ++ y :: x :: post) :=
    List.Perm.append_left pre (List.Perm.swap y x post)
  rw [plainAll_iff] at hc ⊢
  rw [nodupKeys_iff] at hk ⊢
  refine ⟨fun e he => hc e (hperm.mem_iff.2 he), ?_, fun e he => hk.2 e (hperm.mem_iff.2 he)⟩
  exact (hperm.map Prod.fst).nodup_iff.1 hk.1

theorem plain_nodup_parts {pre post : Corn} {x : GoString × Content}
    (hc : plainAll (pre ++ x :: post) = true) (hk : nodupKeys (pre ++ x :: post) = true) :
    plainAll pre = true ∧ plainSeg (baseName x.1) ∧ plainContent x.2 = true ∧
      nodupContent x.2 = true ∧ plainAll post = true ∧ nodupKeys post = true := by
  rw [plainAll_iff] at hc
  rw [nodupKeys_iff] at hk
  have hx : x ∈ pre ++ x :: post := by simp
  refine ⟨?_, (hc x hx).1, (hc x hx).2, hk.2 x hx, ?_, ?_⟩
  · rw [plainAll_iff]
    intro e he
    exact hc e (by simp [he])
  · rw [plainAll_iff]
    intro e he
    exact hc e (by simp [he])
  · rw [nodupKeys_iff]
    refine ⟨?_, fun e he => hk.2 e (by simp [he])⟩
    have := hk.1
    rw [List.map_append, List.map_cons] at this
    exact (List.nodup_cons.1 (List.Nodup.of_append_right this)).2

theorem plain_nodup_replace {pre post : Corn} {name : GoString} {c c' : Content}
    (hc : plainAll (pre ++ (name, c) :: post) = true)
    (hk : nodupKeys (pre ++ (name, c) :: post) = true)
    (hc' : plainContent c' = true) (hk' : nodupContent c' = true) :
    plainAll (pre ++ (name, c') :: post) = true ∧
      nodupKeys (pre ++ (name, c') :: post) = true := by
  rw [plainAll_iff] at hc ⊢
  rw [nodupKeys_iff] at hk ⊢
  refine ⟨?_, ?_, ?_⟩
  · intro e he
    simp only [List.mem_append, List.mem_cons] at he
    rcases he with he | he | he
    · exact hc e (by simp [he])
    · subst he
      exact ⟨(hc (name, c) (by simp)).1, hc'⟩
    · exact hc e (by simp [he])
  · have := hk.1
    simpa using this
  · intro e he
    simp only [List.mem_append, List.mem_cons] at he
    rcases he with he | he | he
    · exact hk.2 e (by simp [he])
    · subst he
      exact hk'
    · exact hk.2 e (by simp [he])

theorem keys_ne_of_nodup {pre post : Corn} {x y : GoString × Content}
    (hk : nodupKeys (pre ++ x :: y :: post) = true) : x.1 ≠ y.1 := by
  rw [nodupKeys_iff] at hk
  have := hk.1
  rw [List.map_append, List.map_cons, List.map_cons] at this
  have h2 := List.Nodup.of_append_right this
  rw [List.nodup_cons] at h2
  intro h
  exact h2.1 (h ▸ List.mem_cons_self _ _)

theorem reorder_sound {c c' : Content} (h : Reorder c c') :
    (plainContent c = true → nodupContent c = true →
        plainContent c' = true ∧ nodupContent c' = true) ∧
      (∀ files, c = .corn files → ∃ files', c' = .corn files' ∧
        (plainAll files = true → nodupKeys files = true → AllSame files files')) ∧
      ((∀ files, c ≠ .corn files) → c' = c) := by
  induction h with
  | refl c =>
    exact ⟨fun h1 h2 => ⟨h1, h2⟩, fun files hf => ⟨files, hf, fun _ _ _ _ _ _ _ _ h => h⟩,
      fun _ => rfl⟩
  | swap pre post x y =>
    refine ⟨?_, ?_, fun hno => absurd rfl (hno _)⟩
    · intro h1 h2
      rw [plainContent] at h1 ⊢
      rw [nodupContent] at h2 ⊢
      exact plain_nodup_swap h1 h2
    · intro files hf
      simp only [Content.corn.injEq] at hf
      subst hf
      refine ⟨_, rfl, ?_⟩
      intro hc hk p fs fs' hwf hp hR hgen
      obtain ⟨nx, cx⟩ := x
      obtain ⟨ny, cy⟩ := y
      have hne : nx ≠ ny := keys_ne_of_nodup hk
      obtain ⟨hcpre, hnx, hcx, -, hcrest, hkrest⟩ := plain_nodup_parts hc hk
      have hy : plainSeg (baseName ny) ∧ plainContent cy = true := by
        rw [plainAll_iff] at hcrest
        exact hcrest (ny, cy) (by simp)
      rw [generateAll_append] at hgen ⊢
      cases hpre : generateAll p pre fs with
      | mk r fs1 =>
        rw [hpre] at hgen
        cases r with
        | some e => simp at hgen
        | none =>
          simp only at hgen ⊢
          obtain ⟨hwf1, hR1⟩ := generateAll_pre hwf hp hcpre hR hpre
          rw [generateAll_cons] at hgen
          rw [generateAll_cons]
          cases hx1 : generate p nx cx fs1 with
          | mk r1 fs2 =>
            rw [hx1] at hgen
            cases r1 with
            | some e => simp at hgen
            | none =>
              simp only at hgen
              rw [generateAll_cons] at hgen
              cases hy1 : generate p ny cy fs2 with
              | mk r2 fs3 =>
                rw [hy1] at hgen
                cases r2 with
                | some e => simp at hgen
                | none =>
                  simp only at hgen
                  obtain ⟨gs1, hg1, hg2⟩ :=
                    generate_swap hwf1 hp hR1 hnx hy.1 hcx hy.2 hne hx1 hy1
                  rw [hg1]
                  simp only
                  rw [generateAll_cons, hg2]
                  exact hgen
  | inside pre post name c c' hcc ih =>
    refine ⟨?_, ?_, fun hno => absurd rfl (hno _)⟩
    · intro h1 h2
      rw [plainContent] at h1 ⊢
      rw [nodupContent] at h2 ⊢
      obtain ⟨-, -, hcx, hkx, -, -⟩ := plain_nodup_parts h1 h2
      obtain ⟨h3, h4⟩ := ih.1 hcx hkx
      exact plain_nodup_replace h1 h2 h3 h4
    · intro files hf
      simp only [Content.corn.injEq] at hf
      subst hf
      refine ⟨_, rfl, ?_⟩
      intro hc hk p fs fs' hwf hp hR hgen
      obtain ⟨hcpre, hnx, hcx, hkx, -, -⟩ := plain_nodup_parts hc hk
      simp only at hnx hcx hkx
      rw [generateAll_append] at hgen ⊢
      cases hpre : generateAll p pre fs with
      | mk r fs1 =>
        rw [hpre] at hgen
        cases r with
        | some e => simp at hgen
        | none =>
          simp only at hgen ⊢
          obtain ⟨hwf1, hR1⟩ := generateAll_pre hwf hp hcpre hR hpre
          rw [generateAll_cons] at hgen
          rw [generateAll_cons]
          have key : ∀ fs2, generate p name c fs1 = (none, fs2) →
              generate p name c' fs1 = (none, fs2) := by
            intro fs2 hg
            by_cases hcorn : ∃ sub, c = .corn sub
            · obtain ⟨sub, rfl⟩ := hcorn
              obtain ⟨sub', rfl, hsame⟩ := ih.2.1 sub rfl
              rw [plainContent] at hcx
              rw [nodupContent] at hkx
              unfold generate at hg ⊢
              split
              · next hd =>
                rw [if_pos hd, generateDir] at hg
                rw [generateDir]
                split at hg
                · cases hg
                · next fs0 h0 =>
                  simp only at hg ⊢
                  have hle := createDir_le (Join p name) fs1
                  have hw0 : (createDir (Join p name) fs1).2.WF := createDir_WF hwf1
                  rw [h0] at hle hw0
                  refine hsame hcx hkx (Join p name) fs0 fs2 hw0 (createDir_path_ne_nil h0)
                    ?_ hg
                  rw [locOf_congr hle.1]
                  exact createDir_final hwf1 h0
              · next hd =>
                rw [if_neg hd] at hg
                have := generateFile_corn_ne_none p name sub fs1
                rw [hg] at this
                exact absurd rfl this
            · have : c' = c := ih.2.2 (fun files hf => hcorn ⟨files, hf⟩)
              rw [this]
              exact hg
          cases hx1 : generate p name c fs1 with
          | mk r1 fs2 =>
            rw [hx1] at hgen
            cases r1 with
            | some e => simp at hgen
            | none =>
              simp only at hgen
              rw [key fs2 hx1]
              exact hgen
  | trans a b c _ _ ih1 ih2 =>
    refine ⟨?_, ?_, ?_⟩
    · intro h1 h2
      obtain ⟨h3, h4⟩ := ih1.1 h1 h2
      exact ih2.1 h3 h4
    · intro files hf
      obtain ⟨files2, hb, hs1⟩ := ih1.2.1 files hf
      obtain ⟨files3, hc, hs2⟩ := ih2.2.1 files2 hb
      refine ⟨files3, hc, ?_⟩
      intro hc1 hk1 p fs fs' hwf hp hR hgen
      subst hf
      subst hb
      have h12 := ih1.1 (by rw [plainContent]; exact hc1) (by rw [nodupContent]; exact hk1)
      rw [plainContent, nodupContent] at h12
      exact hs2 h12.1 h12.2 p fs fs' hwf hp hR (hs1 hc1 hk1 p fs fs' hwf hp hR hgen)
    · intro hno
      have hb : b = a := ih1.2.2 hno
      subst hb
      exact ih2.2.2 hno

theorem locOf_Clean (fs : FS) {q : GoString} (hq : q ≠ []) : fs.locOf (Clean q) = fs.locOf q := by
  have hstart : fs.start (Clean q) = fs.start q := by
    unfold FS.start
    rw [isRooted_Clean hq]
  have h0 : fs.locOf (Clean q) = (comps (Clean q)).foldl stepLoc (fs.start (Clean q)) := rfl
  rw [h0, hstart]
  by_cases hS : cleanStack q = []
  · rw [comps_Clean_of_empty hq hS, ← locStack_cleanStack fs q, hS]
    split <;> simp [stepLoc, locStack]
  · rw [comps_Clean_of_stack hq hS]
    exact foldl_prefixComps fs q

theorem locOf_Join_any (fs : FS) {p : GoString} (name : GoString) (hp : p ≠ []) :
    fs.locOf (Join p name) = (comps name).foldl stepLoc (fs.locOf p) := by
  have hq : p ++ '/' :: name ≠ [] := by simp
  rw [Join_eq_Clean name hp, locOf_Clean fs hq]
  have h0 : fs.locOf (p ++ '/' :: name) =
      (comps (p ++ '/' :: name)).foldl stepLoc (fs.start (p ++ '/' :: name)) := rfl
  have h1 : fs.start (p ++ '/' :: name) = fs.start p := by
    unfold FS.start
    rw [isRooted_append _ hp]
  rw [h0, h1, comps_append_slash, List.foldl_append]
  rfl

theorem createDir_frame_beneath {fs : FS} (hwf : fs.WF) {path : GoString} {R : Loc}
    (hd : descending (comps path)) (hpre : R <+: fs.locOf path)
    (hR : fs.node R = some .dir) (l : Loc) (hl : ¬ (R <+: l ∧ l ≠ R)) :
    (createDir path fs).2.node l = fs.node l := by
  by_contra hch
  have h1 := createDir_changed hd hch
  have h2 := (createDir_new path fs l hch).1
  rcases List.prefix_or_prefix_of_prefix h1 hpre with h | h
  · have := hwf.of_above hR h
    rw [h2] at this
    cases this
  · refine hl ⟨h, fun he => ?_⟩
    rw [he, hR] at h2
    cases h2

theorem OpenFileExcl_ok_loc {path : GoString} {fs fs1 : FS} {f : Loc} (hwf : fs.WF)
    (h : OpenFileExcl path fs = (.ok f, fs1)) :
    f = fs.locOf path ∧ ∀ x : Node, (fs.set f x).WF := by
  unfold OpenFileExcl at h
  simp only [] at h
  split at h
  · cases h
  · split at h
    · cases h
    · next d hd =>
      split at h
      · cases h
      · cases h
      · next hdir =>
        split at h
        · cases h
        · next hlast =>
          split at h
          · cases h
          · next hnone =>
            split at h
            · cases h
            simp only [Prod.mk.injEq, Except.ok.injEq] at h
            obtain ⟨hf, -⟩ := h
            subst hf
            refine ⟨?_, fun x => hwf.set x hdir hnone⟩
            have h0 : fs.locOf path = (comps path).foldl stepLoc (fs.start path) := rfl
            have hres := resolve_eq_foldl _ _ _ _ hd
            rw [h0]
            conv_rhs => rw [comps_eq_dropLast_append path]
            rw [List.foldl_append, ← hres]
            simp only [List.foldl_cons, List.foldl_nil]
            exact (stepLoc_of_normal d hlast).symm

theorem generateFile_frame_any {fs : FS} (hwf : fs.WF) {p name : GoString} (content : Content)
    (hp : p ≠ []) (hn : ['.', '.'] ∉ comps name) (hR : fs.node (fs.locOf p) = some .dir) :
    (generateFile p name content fs).2.WF ∧
      ∀ l, ¬ (fs.locOf p <+: l ∧ l ≠ fs.locOf p) →
        (generateFile p name content fs).2.node l = fs.node l := by
  cases h : OpenFileExcl (Join p name) fs with
  | mk r fs1 =>
    cases r with
    | error e => rw [generateFile_of_error content h]; exact ⟨hwf, fun _ _ => rfl⟩
    | ok f =>
      obtain ⟨hnone, -⟩ := OpenFileExcl_ok h
      obtain ⟨hf, hset⟩ := OpenFileExcl_ok_loc hwf h
      have hpre : fs.locOf p <+: f := by
        rw [hf, locOf_Join_any fs name hp]
        exact foldl_stepLoc_extends _ hn _
      have hne : ∀ l, ¬ (fs.locOf p <+: l ∧ l ≠ fs.locOf p) → l ≠ f := by
        intro l hl he
        subst he
        refine hl ⟨hpre, fun he => ?_⟩
        rw [he, hR] at hnone
        cases hnone
      obtain ⟨b, hb⟩ := generateFile_snd_of_ok content h
      rw [hb]
      exact ⟨hset _, fun l hl => FS.set_node_of_ne _ _ (hne l hl)⟩

theorem strict_below_trans {R R1 l : Loc} (h : R <+: R1) (hl : R1 <+: l ∧ l ≠ R1) :
    R <+: l ∧ l ≠ R := by
  refine ⟨h.trans hl.1, fun he => ?_⟩
  subst he
  exact hl.2 (hl.1.eq_of_length_le h.length_le).symm

mutual
theorem generateDir_frame_any (p name : GoString) (content : Content) (fs : FS) (hwf : fs.WF)
    (hp : p ≠ []) (hn : ['.', '.'] ∉ comps name) (hc : noDotDotContent content = true)
    (hR : fs.node (fs.locOf p) = some .dir) :
    (generateDir p name content fs).2.WF ∧
      ∀ l, ¬ (fs.locOf p <+: l ∧ l ≠ fs.locOf p) →
        (generateDir p name content fs).2.node l = fs.node l := by
  have hpre : fs.locOf p <+: fs.locOf (Join p name) := by
    rw [locOf_Join_any fs name hp]
    exact foldl_stepLoc_extends _ hn _
  have hfr := createDir_frame_beneath hwf (descending_comps_Join p name) hpre hR
  have hw0 : (createDir (Join p name) fs).2.WF := createDir_WF hwf
  have hle := createDir_le (Join p name) fs
  rw [generateDir]
  split
  · next e fs0 h0 => rw [h0] at hfr hw0; exact ⟨hw0, hfr⟩
  · next fs0 h0 =>
    rw [h0] at hfr hw0 hle
    simp only at hfr hw0 hle
    match content with
    | .nil => exact ⟨hw0, hfr⟩
    | .str _ => exact ⟨hw0, hfr⟩
    | .other _ => exact ⟨hw0, hfr⟩
    | .corn files =>
      rw [noDotDotContent] at hc
      have hloc0 : fs0.locOf (Join p name) = fs.locOf (Join p name) := locOf_congr hle.1 _
      have ih := generateAll_frame_any (Join p name) files fs0 hw0 (Join_ne_nil name hp) hc
        (by rw [hloc0]; exact createDir_final hwf h0)
      rw [hloc0] at ih
      refine ⟨ih.1, fun l hl => ?_⟩
      have := ih.2 l (fun h => hl (strict_below_trans hpre h))
      simp only at this ⊢
      rw [this, hfr l hl]
theorem generateAll_frame_any (p : GoString) (files : List (GoString × Content)) (fs : FS)
    (hwf : fs.WF) (hp : p ≠ []) (hc : noDotDotAll files = true)
    (hR : fs.node (fs.locOf p) = some .dir) :
    (generateAll p files fs).2.WF ∧
      ∀ l, ¬ (fs.locOf p <+: l ∧ l ≠ fs.locOf p) →
        (generateAll p files fs).2.node l = fs.node l := by
  match files with
  | [] => rw [generateAll]; exact ⟨hwf, fun _ _ => rfl⟩
  | (name, content) :: rest =>
    rw [noDotDotAll] at hc
    simp only [Bool.and_eq_true, decide_eq_true_eq] at hc
    obtain ⟨⟨hn, hc1⟩, hc2⟩ := hc
    have h1 : (generate p name content fs).2.WF ∧
        ∀ l, ¬ (fs.locOf p <+: l ∧ l ≠ fs.locOf p) →
          (generate p name content fs).2.node l = fs.node l := by
      unfold generate
      split
      · exact generateDir_frame_any p name content fs hwf hp hn hc1 hR
      · exact generateFile_frame_any hwf content hp hn hR
    have hle := generate_le p name content fs
    rw [generateAll_cons]
    split
    · next e fs1 h => rw [h] at h1; exact h1
    · next fs1 h =>
      rw [h] at h1 hle
      have hloc1 : fs1.locOf p = fs.locOf p := locOf_congr hle.1 p
      have ih := generateAll_frame_any p rest fs1 h1.1 hp hc2
        (by rw [hloc1]; exact hle.2 _ _ hR)
      rw [hloc1] at ih
      refine ⟨ih.1, fun l hl => ?_⟩
      rw [ih.2 l hl]
      exact h1.2 l hl
end

/-- For a root path in which `..` comes only before the first name, the creation
of the root directory makes nothing beneath the root: when nothing exists there
before, nothing exists there after. -/
theorem resolve_mono {a b : FS} (h : a.le b) (cs : List GoString) : ∀ (cur d : Loc),
    resolve a cur cs = .ok d → resolve b cur cs = .ok d := by
  induction cs with
  | nil => intro cur d hr; exact hr
  | cons c cs ih =>
    intro cur d hr
    rw [resolve] at hr ⊢
    split at hr
    · next hd => rw [h.2 _ _ hd]; exact ih _ _ hr
    · cases hr
    · cases hr

theorem OpenFileExcl_ok_inv {path : GoString} {fs fs1 : FS} {f : Loc}
    (h : OpenFileExcl path fs = (.ok f, fs1)) :
    path ≠ [] ∧ ∃ d, resolve fs (fs.start path) (comps path).dropLast = .ok d ∧
      fs.node d = some .dir ∧
      stepLoc d (((comps path).getLast?).getD []) = d ++ [((comps path).getLast?).getD []] ∧
      f = d ++ [((comps path).getLast?).getD []] := by
  unfold OpenFileExcl at h
  simp only [] at h
  split at h
  · cases h
  · next hp =>
    refine ⟨hp, ?_⟩
    split at h
    · cases h
    · next d hd =>
      split at h
      · cases h
      · cases h
      · next hdir =>
        split at h
        · cases h
        · next hlast =>
          split at h
          · cases h
          · split at h
            · cases h
            simp only [Prod.mk.injEq, Except.ok.injEq] at h
            exact ⟨d, hd, hdir, stepLoc_of_normal d hlast, h.1.symm⟩

theorem Stat_of_OpenFileExcl {path : GoString} {fs fs1 : FS} {f : Loc}
    (h : OpenFileExcl path fs = (.ok f, fs1)) : Stat path fs1 = .ok (.file []) := by
  obtain ⟨hnone, hfs1⟩ := OpenFileExcl_ok h
  obtain ⟨hp, d, hd, hdir, hstep, hf⟩ := OpenFileExcl_ok_inv h
  have hle : fs.le fs1 := hfs1 ▸ FS.le_set _ hnone
  have hstart : fs1.start path = fs.start path := by
    simp only [FS.start, FS.cwd, hle.1]
  unfold Stat
  rw [if_neg hp, hstart, comps_eq_dropLast_append path,
    resolve_append fs1 _ _ _ d (resolve_mono hle _ _ _ hd)]
  simp only [resolve, hle.2 _ _ hdir, hstep, ← hf]
  rw [hfs1, FS.set_node_self]

theorem FS.le_antisymm {a b : FS} (h1 : a.le b) (h2 : b.le a) : a = b := by
  refine FS.ext_node h1.1 (fun l => ?_)
  cases ha : a.node l with
  | some n => exact (h1.2 l n ha).symm
  | none =>
    cases hb : b.node l with
    | none => rfl
    | some m => rw [h2.2 l m hb] at ha; cases ha

theorem generateAll_fixed_iff (p : GoString) (fs : FS) (files : Corn) :
    generateAll p files fs = (none, fs) ↔ ∀ e ∈ files, generate p e.1 e.2 fs = (none, fs) := by
  induction files with
  | nil => simp [generateAll_nil]
  | cons x rest ih =>
    obtain ⟨name, content⟩ := x
    rw [generateAll_cons]
    constructor
    · intro h
      have hle1 := generate_le p name content fs
      cases hm : generate p name content fs with
      | mk r fsm =>
        rw [hm] at h hle1
        cases r with
        | some e => cases h
        | none =>
          simp only at h hle1
          have hle2 := generateAll_le p rest fsm
          rw [h] at hle2
          have heq : fs = fsm := FS.le_antisymm hle1 hle2
          rw [← heq] at h
          intro e he
          rcases List.mem_cons.1 he with rfl | he
          · show generate p name content fs = (none, fs)
            rw [hm, ← heq]
          · exact ih.1 h e he
    · intro h
      rw [h (name, content) (List.mem_cons_self _ _)]
      exact ih.2 (fun e he => h e (List.mem_cons_of_mem _ he))

theorem dirOnlyAll_iff (files : Corn) :
    dirOnlyAll files = true ↔ ∀ e ∈ files, isDirName e.1 = true ∧ dirOnly e.2 = true := by
  induction files with
  | nil => simp [dirOnlyAll]
  | cons x rest ih =>
    obtain ⟨name, content⟩ := x
    rw [dirOnlyAll]
    simp only [Bool.and_eq_true, List.mem_cons, forall_eq_or_imp, ih, and_assoc]

theorem reorder_fixed {c c' : Content} (h : Reorder c c') :
    (dirOnly c = true → dirOnly c' = true) ∧
      (∀ files, c = .corn files → ∃ files', c' = .corn files' ∧
        ∀ (p : GoString) (fs : FS), dirOnlyAll files = true →
          generateAll p files fs = (none, fs) → generateAll p files' fs = (none, fs)) ∧
      ((∀ files, c ≠ .corn files) → c' = c) := by
  induction h with
  | refl c => exact ⟨fun h => h, fun files hf => ⟨files, hf, fun _ _ _ h => h⟩, fun _ => rfl⟩
  | swap pre post x y =>
    refine ⟨?_, ?_, fun hno => absurd rfl (hno _)⟩
    · intro h
      rw [dirOnly, dirOnlyAll_iff] at h ⊢
      intro e he
      apply h e
      simp only [List.mem_append, List.mem_cons] at he ⊢
      tauto
    · intro files hf
      simp only [Content.corn.injEq] at hf
      subst hf
      refine ⟨_, rfl, ?_⟩
      intro p fs _ hg
      rw [generateAll_fixed_iff] at hg ⊢
      intro e he
      apply hg e
      simp only [List.mem_append, List.mem_cons] at he ⊢
      tauto
  | inside pre post name c c' hcc ih =>
    refine ⟨?_, ?_, fun hno => absurd rfl (hno _)⟩
    · intro h
      rw [dirOnly, dirOnlyAll_iff] at h ⊢
      intro e he
      simp only [List.mem_append, List.mem_cons] at he
      rcases he with he | rfl | he
      · exact h e (by simp [he])
      · have := h (name, c) (by simp)
        exact ⟨this.1, ih.1 this.2⟩
      · exact h e (by simp [he])
    · intro files hf
      simp only [Content.corn.injEq] at hf
      subst hf
      refine ⟨_, rfl, ?_⟩
      intro p fs hdo hg
      rw [dirOnlyAll_iff] at hdo
      rw [generateAll_fixed_iff] at hg ⊢
      intro e he
      simp only [List.mem_append, List.mem_cons] at he
      rcases he with he | rfl | he
      · exact hg e (by simp [he])
      · have hd := hdo (name, c) (by simp)
        have hgc := hg (name, c) (by simp)
        simp only at hd hgc ⊢
        by_cases hcorn : ∃ sub, c = .corn sub
        · obtain ⟨sub, rfl⟩ := hcorn
          obtain ⟨sub', rfl, hsame⟩ := ih.2.1 sub rfl
          unfold generate at hgc ⊢
          rw [if_pos hd.1, generateDir] at hgc ⊢
          cases h0 : createDir (Join p name) fs with
          | mk r fs0 =>
            have hle0 := createDir_le (Join p name) fs
            rw [h0] at hgc hle0
            cases r with
            | some e => cases hgc
            | none =>
              simp only at hgc hle0 ⊢
              have hle1 := generateAll_le (Join p name) sub fs0
              rw [hgc] at hle1
              have heq : fs = fs0 := FS.le_antisymm hle0 hle1
              rw [← heq] at hgc ⊢
              have hds := hd.2
              rw [dirOnly] at hds
              exact hsame (Join p name) fs hds hgc
        · have : c' = c := ih.2.2 (fun files hf => hcorn ⟨files, hf⟩)
          rw [this]
          exact hgc
      · exact hg e (by simp [he])
  | trans a b c _ _ ih1 ih2 =>
    refine ⟨fun h => ih2.1 (ih1.1 h), ?_, ?_⟩
    · intro files hf
      obtain ⟨files2, hb, hs1⟩ := ih1.2.1 files hf
      obtain ⟨files3, hc, hs2⟩ := ih2.2.1 files2 hb
      refine ⟨files3, hc, ?_⟩
      intro p fs hdo hg
      subst hf
      subst hb
      have h12 := ih1.1 (by rw [dirOnly]; exact hdo)
      rw [dirOnly] at h12
      exact hs2 p fs h12 (hs1 p fs hdo hg)
    · intro hno
      have hb : b = a := ih1.2.2 hno
      subst hb
      exact ih2.2.2 hno

/-! ## The claims -/

/-- C2: with the empty root, `GenerateFromRoot` returns the error of class
`InvalidArgument` whatever the tree and the filesystem state, and the state is
the one it was given. -/
theorem empty_root_invalid_argument (files : Corn) (fs : FS) :
    GenerateFromRoot [] files fs = (some .rootNil, fs) ∧
      PopError.rootNil.kind = .InvalidArgument := by
  simp [GenerateFromRoot, PopError.kind]

/-- C3: when something exists at `Join parent name` and `name` is file-marked,
`generate` returns an error of class `FileCreationError` for that path and the
filesystem state is unchanged. -/
theorem file_creation_exclusive (parent name : GoString) (content : Content) (fs : FS)
    (n : Node) (hname : isDirName name = false) (hex : Stat (Join parent name) fs = .ok n) :
    generate parent name content fs =
        (some (.createFile (Join parent name) .alreadyExists), fs) ∧
      (PopError.createFile (Join parent name) .alreadyExists).kind = .FileCreationError := by
  refine ⟨?_, rfl⟩
  simp only [generate, hname, generateFile, OpenFileExcl_of_Stat hex]
  simp

/-- An instance of C3: a second file `r/x` is refused and the first keeps its
byte. -/
theorem file_creation_exclusive_witness :
    generate "r".toList "x".toList (.str "2".toList) fsWithFile =
        (some (.createFile (Join "r".toList "x".toList) .alreadyExists), fsWithFile) ∧
      (PopError.createFile (Join "r".toList "x".toList) .alreadyExists).kind
        = .FileCreationError :=
  file_creation_exclusive "r".toList "x".toList (.str "2".toList) fsWithFile
    (.file "1".toList) (by decide) (by rfl)

/-- C6: in a loop over the entries `pre ++ (name, content) :: post` of a
directory `dir`, when the entries of `pre` succeed and `(name, content)` fails
with `err`, leaving state `fs3`, then `GenerateFromRoot` on `dir`, and likewise
`generate` on a directory-marked entry that names `dir`, returns `err` with
final state `fs3`, whatever `post` is; and what existed after `pre` exists
unchanged in `fs3`. -/
theorem first_error_stops_walk (dir name : GoString) (content : Content) (pre post : Corn)
    (fs1 fs2 fs3 : FS) (err : PopError)
    (hpre : generateAll dir pre fs1 = (none, fs2))
    (hfail : generate dir name content fs2 = (some err, fs3)) :
    (∀ fs, dir ≠ [] → createDir dir fs = (none, fs1) →
        GenerateFromRoot dir (pre ++ (name, content) :: post) fs = (some err, fs3)) ∧
      (∀ fs parent dname, isDirName dname = true → Join parent dname = dir →
        createDir dir fs = (none, fs1) →
        generate parent dname (.corn (pre ++ (name, content) :: post)) fs = (some err, fs3)) ∧
      fs1.le fs2 ∧ fs2.le fs3 := by
  have hall := generateAll_first_error dir name content post err fs3 pre fs1 fs2 hpre hfail
  refine ⟨?_, ?_, ?_, ?_⟩
  · intro fs hdir h0
    simp only [GenerateFromRoot, if_neg hdir, h0, hall]
  · intro fs parent dname hd hj h0
    subst hj
    rw [generate, if_pos hd, generateDir, h0]
    exact hall
  · have := generateAll_le dir pre fs1
    rw [hpre] at this
    exact this
  · have := generate_le dir name content fs2
    rw [hfail] at this
    exact this

/-- C10: when `GenerateFromRoot` succeeds on a tree that holds only directories,
running it again on the resulting state, with the entries of each map visited
in the same or in any other order, succeeds and returns that state. -/
theorem directory_creation_idempotent (root : GoString) (tree tree' : Corn) (fs fs1 : FS)
    (hroot : root ≠ []) (hdir : dirOnlyAll tree = true)
    (hperm : Reorder (.corn tree) (.corn tree'))
    (h : GenerateFromRoot root tree fs = (none, fs1)) :
    GenerateFromRoot root tree' fs1 = (none, fs1) := by
  obtain ⟨files', hf, hsame⟩ := (reorder_fixed hperm).2.1 tree rfl
  simp only [Content.corn.injEq] at hf
  subst hf
  simp only [GenerateFromRoot, if_neg hroot] at h ⊢
  split at h
  · cases h
  · next fs0 h0 =>
    have hle0 : fs0.le fs1 := by
      have := generateAll_le root tree fs0
      rw [h] at this
      exact this
    rw [createDir_idem h0 hle0]
    exact hsame root fs1 hdir (generateAll_idem root tree fs0 fs1 fs1 hdir h (FS.le_refl _))

/-- C4, as stated, fails: when a file stands at `Join parent name`, the entry
fails with an error of class `DirCreationError`, not `StructuralTypeError`. -/
theorem dir_wrong_content_counterexample :
    isDirName "x/".toList = true ∧ notTree (.other "int".toList) = true ∧
      (generate "r".toList "x/".toList (.other "int".toList) fsBlocked).1 =
        some (.createDir "r/x".toList .notADirectory) ∧
      (PopError.createDir "r/x".toList .notADirectory).kind ≠ .StructuralTypeError := by
  decide

/-- C4, amended: for a directory-marked name whose content is neither absent nor
a nested tree, when creating the directory `Join parent name` succeeds, the
entry fails with an error of class `StructuralTypeError`; afterwards the
directory exists, and nothing beneath it has changed. -/
theorem dir_wrong_content (parent name : GoString) (content : Content) (fs fs1 : FS)
    (hwf : fs.WF) (hname : isDirName name = true) (hbad : notTree content = true)
    (hmk : createDir (Join parent name) fs = (none, fs1)) :
    generate parent name content fs = (some (.dirContent content.typeName), fs1) ∧
      (PopError.dirContent content.typeName).kind = .StructuralTypeError ∧
      Stat (Join parent name) fs1 = .ok .dir ∧
      ∀ l, fs.locOf (Join parent name) <+: l → l ≠ fs.locOf (Join parent name) →
        fs1.node l = fs.node l := by
  have hsnd : (createDir (Join parent name) fs).2 = fs1 := by rw [hmk]
  have hle := createDir_le (Join parent name) fs
  rw [hsnd] at hle
  have hwf1 : fs1.WF := hsnd ▸ createDir_WF hwf
  refine ⟨?_, rfl, ?_, ?_⟩
  · rw [generate, if_pos hname]
    exact generateDir_notTree hbad hmk
  · apply Stat_of_dir hwf1 (createDir_path_ne_nil hmk) (descending_comps_Join parent name)
    rw [locOf_congr hle.1]
    exact createDir_final hwf hmk
  · intro l hl hne
    by_contra hch
    rw [← hsnd] at hch
    have := createDir_changed (descending_comps_Join parent name) hch
    exact hne (this.eq_of_length_le hl.length_le)

/-- An instance of C4, amended: the directory `r/a` with content of type `int`. -/
theorem dir_wrong_content_witness :
    generate "r".toList "a/".toList (.other "int".toList) (FS.init []) =
        (some (.dirContent (Content.other "int".toList).typeName),
          (createDir (Join "r".toList "a/".toList) (FS.init [])).2) ∧
      (PopError.dirContent (Content.other "int".toList).typeName).kind = .StructuralTypeError ∧
      Stat (Join "r".toList "a/".toList) (createDir (Join "r".toList "a/".toList) (FS.init [])).2
        = .ok .dir ∧
      ∀ l, (FS.init []).locOf (Join "r".toList "a/".toList) <+: l →
        l ≠ (FS.init []).locOf (Join "r".toList "a/".toList) →
        (createDir (Join "r".toList "a/".toList) (FS.init [])).2.node l = (FS.init []).node l :=
  dir_wrong_content "r".toList "a/".toList (.other "int".toList) (FS.init []) _
    (FS.init_WF []) (by decide) (by decide) (Prod.ext (by decide) rfl)

/-- C5, as stated, fails: for a file-marked name of two elements whose first
element does not exist, the entry fails with an error of class
`FileCreationError`, and no file exists afterwards. -/
theorem file_wrong_content_counterexample :
    Stat "r".toList fsRoot = .ok .dir ∧
      Stat (Join "r".toList "x/y".toList) fsRoot = .error .notFound ∧
      isDirName "x/y".toList = false ∧ notText (.corn []) = true ∧
      (generate "r".toList "x/y".toList (.corn []) fsRoot).1 =
        some (.createFile "r/x/y".toList .notFound) ∧
      (PopError.createFile "r/x/y".toList .notFound).kind ≠ .StructuralTypeError ∧
      Stat (Join "r".toList "x/y".toList)
        (generate "r".toList "x/y".toList (.corn []) fsRoot).2 = .error .notFound :=
  ⟨rfl, rfl, by decide, by decide, by decide, by decide, rfl⟩

/-- C5, amended: for a file-marked name whose content is neither absent nor a
text, when the exclusive creation of the file `Join parent name` succeeds (the
directory that is to hold the file exists, nothing exists at the path, and the
operating system does not refuse), the entry fails with an error of class
`StructuralTypeError`; afterwards a file of zero bytes exists at
`Join parent name`, and nothing else has changed. -/
theorem file_wrong_content (parent name : GoString) (content : Content) (fs fs1 : FS)
    (f : Loc) (hname : isDirName name = false) (hbad : notText content = true)
    (hopen : OpenFileExcl (Join parent name) fs = (.ok f, fs1)) :
    generate parent name content fs = (some (.fileContent (Join parent name)), fs1) ∧
      (PopError.fileContent (Join parent name)).kind = .StructuralTypeError ∧
      Stat (Join parent name) fs1 = .ok (.file []) ∧
      ∀ l, l ≠ f → fs1.node l = fs.node l := by
  obtain ⟨-, hfs1⟩ := OpenFileExcl_ok hopen
  refine ⟨?_, rfl, Stat_of_OpenFileExcl hopen, ?_⟩
  · rw [generate, hname]
    simp only [Bool.false_eq_true, if_false]
    rw [generateFile_of_ok content hopen, hfs1]
    cases content with
    | nil => simp [notText] at hbad
    | str _ => simp [notText] at hbad
    | corn _ => rfl
    | other _ => rfl
  · intro l hl
    rw [hfs1]
    exact FS.set_node_of_ne _ _ hl

/-- An instance of C5, amended: the file `r/x/y`, named by the key `x/y` in the
directory `r`, with a nested tree as content, where the directory `r/x`
exists. -/
theorem file_wrong_content_witness :
    generate "r".toList "x/y".toList (.corn []) (createDir "r/x".toList (FS.init [])).2 =
        (some (.fileContent (Join "r".toList "x/y".toList)),
          (OpenFileExcl (Join "r".toList "x/y".toList)
            (createDir "r/x".toList (FS.init [])).2).2) ∧
      (PopError.fileContent (Join "r".toList "x/y".toList)).kind = .StructuralTypeError ∧
      Stat (Join "r".toList "x/y".toList)
        (OpenFileExcl (Join "r".toList "x/y".toList)
          (createDir "r/x".toList (FS.init [])).2).2 = .ok (.file []) ∧
      ∀ l, l ≠ ["r".toList, "x".toList, "y".toList] →
        (OpenFileExcl (Join "r".toList "x/y".toList)
          (createDir "r/x".toList (FS.init [])).2).2.node l =
        (createDir "r/x".toList (FS.init [])).2.node l :=
  file_wrong_content "r".toList "x/y".toList (.corn []) (createDir "r/x".toList (FS.init [])).2
    _ ["r".toList, "x".toList, "y".toList] (by decide) (by decide) (Prod.ext rfl rfl)

/-- C8, as stated, fails: with the key `../x` a file is created next to the root
directory `r`, at a location that is neither beneath `r` nor above it. -/
theorem writes_beneath_root_counterexample :
    (FS.init []).node ["x".toList] = none ∧
      (GenerateFromRoot "r".toList [("../x".toList, .nil)] (FS.init [])).2.node ["x".toList] =
        some (.file []) ∧
      ¬ ((FS.init []).locOf "r".toList <+: ["x".toList]) ∧
      ¬ (["x".toList] <+: (FS.init []).locOf "r".toList) := by
  decide

/-- C8, amended: on a filesystem without symbolic links, which no other process
changes, when no key of the tree has `..` among its path elements, every
location whose content `GenerateFromRoot` changes is strictly beneath the root,
or was missing and is a directory made by the creation of the root directory;
for a root path in cleaned form such a directory is the root or lies above
it. -/
theorem writes_beneath_root (root : GoString) (tree : Corn) (fs : FS) (l : Loc)
    (hroot : root ≠ []) (hwf : fs.WF) (hkeys : noDotDotAll tree = true)
    (hch : (GenerateFromRoot root tree fs).2.node l ≠ fs.node l) :
    (fs.locOf root <+: l ∧ l ≠ fs.locOf root) ∨
      (fs.node l = none ∧ (GenerateFromRoot root tree fs).2.node l = some .dir ∧
        (createDir root fs).2.node l = some .dir ∧ (Clean root = root → l <+: fs.locOf root)) := by
  have hdesc : Clean root = root → descending (comps root) := by
    intro h; rw [← h]; exact descending_comps_Clean root
  have hle := createDir_le root fs
  have hwf1 : (createDir root fs).2.WF := createDir_WF hwf
  unfold GenerateFromRoot at hch ⊢
  rw [if_neg hroot] at hch ⊢
  split at hch
  · next e fs1 h1 =>
    rw [h1]
    rw [h1] at hle hwf1
    simp only at hch ⊢
    right
    have hch' : (createDir root fs).2.node l ≠ fs.node l := by rw [h1]; exact hch
    have hnew := createDir_new root fs l hch'
    rw [h1] at hnew
    refine ⟨hnew.1, hnew.2, hnew.2, fun hc => createDir_changed (hdesc hc) hch'⟩
  · next fs1 h1 =>
    rw [h1]
    rw [h1] at hle hwf1
    simp only at hch hle hwf1 ⊢
    by_cases hb : fs.locOf root <+: l ∧ l ≠ fs.locOf root
    · exact Or.inl hb
    · right
      have hloc1 : fs1.locOf root = fs.locOf root := locOf_congr hle.1 root
      have hfr := generateAll_frame_any root tree fs1 hwf1 hroot hkeys
        (by rw [hloc1]; exact createDir_final hwf h1)
      rw [hloc1] at hfr
      have heq := hfr.2 l hb
      rw [heq] at hch ⊢
      have hch' : (createDir root fs).2.node l ≠ fs.node l := by rw [h1]; exact hch
      have hnew := createDir_new root fs l hch'
      rw [h1] at hnew
      exact ⟨hnew.1, hnew.2, hnew.2, fun hc => createDir_changed (hdesc hc) hch'⟩

/-- An instance of C8, amended: the file `r/a/b` lies strictly beneath the root
`r`. -/
theorem writes_beneath_root_witness :
    ((FS.init []).locOf "r".toList <+: ["r".toList, "a".toList, "b".toList] ∧
        ["r".toList, "a".toList, "b".toList] ≠ (FS.init []).locOf "r".toList) ∨
      ((FS.init []).node ["r".toList, "a".toList, "b".toList] = none ∧
        (GenerateFromRoot "r".toList [("a/".toList, .corn [("b".toList, .str "hi".toList)])]
          (FS.init [])).2.node ["r".toList, "a".toList, "b".toList] = some .dir ∧
        (createDir "r".toList (FS.init [])).2.node ["r".toList, "a".toList, "b".toList]
          = some .dir ∧
        (Clean "r".toList = "r".toList →
          ["r".toList, "a".toList, "b".toList] <+: (FS.init []).locOf "r".toList)) :=
  writes_beneath_root "r".toList [("a/".toList, .corn [("b".toList, .str "hi".toList)])]
    (FS.init []) ["r".toList, "a".toList, "b".toList] (by decide) (FS.init_WF []) (by decide)
    (by decide)

/-- C9, as stated, fails: the error for a directory with content of type `int`
does not hold the path `r/a`, and the error for a file with a nested tree as
content does not hold the type `pop.Corn`. -/
theorem structural_error_message_counterexample :
    (generate "r".toList "a/".toList (.other "int".toList) (FS.init [])).1 =
        some (.dirContent "int".toList) ∧
      (PopError.dirContent "int".toList).kind = .StructuralTypeError ∧
      ¬ (Join "r".toList "a/".toList <:+: (PopError.dirContent "int".toList).message) ∧
      (generate "r".toList "b".toList (.corn []) fsRoot).1 =
        some (.fileContent "r/b".toList) ∧
      (PopError.fileContent "r/b".toList).kind = .StructuralTypeError ∧
      ¬ ((Content.corn []).typeName <:+: (PopError.fileContent "r/b".toList).message) := by
  decide

/-- C9, amended: an error of class `StructuralTypeError` returned for a
directory-marked entry whose content is neither absent nor a nested tree holds
the type of the content in its message, and one returned for a file-marked entry
holds the path `Join parent name` in its message. -/
theorem structural_error_message (parent name : GoString) (content : Content) (fs fs1 : FS)
    (e : PopError) (h : generate parent name content fs = (some e, fs1))
    (hk : e.kind = .StructuralTypeError) :
    (isDirName name = true → notTree content = true → content.typeName <:+: e.message) ∧
      (isDirName name = false → Join parent name <:+: e.message) := by
  unfold generate at h
  constructor
  · intro hd hbad
    rw [if_pos hd] at h
    rw [generateDir_kind hbad h hk]
    exact ⟨_, _, rfl⟩
  · intro hd
    rw [hd] at h
    simp only [Bool.false_eq_true, if_false] at h
    rw [generateFile_kind h hk]
    exact ⟨_, _, rfl⟩

/-- An instance of C9, amended: the message for the directory `r/a` with content
of type `int` names that type. -/
theorem structural_error_message_witness :
    (isDirName "a/".toList = true → notTree (.other "int".toList) = true →
        (Content.other "int".toList).typeName <:+: (PopError.dirContent "int".toList).message) ∧
      (isDirName "a/".toList = false →
        Join "r".toList "a/".toList <:+: (PopError.dirContent "int".toList).message) :=
  structural_error_message "r".toList "a/".toList (.other "int".toList) (FS.init [])
    (generate "r".toList "a/".toList (.other "int".toList) (FS.init [])).2
    (.dirContent "int".toList) (Prod.ext (by decide) rfl) (by decide)

/-- C1, as stated, fails, in four ways.  The well-formed tree with the keys `a`
and `a/` fails in either order, since the two keys name the same location.  The
well-formed tree with the single file-marked key `a/b.txt` fails, since the
directory `r/a` that is to hold the file does not exist.  On a state in which
the root `r` is a file, beneath which nothing exists, the empty tree fails.  And
the well-formed tree whose single key is a NUL character fails, since the
operating system refuses that name. -/
theorem generate_well_formed_counterexample :
    "r".toList ≠ [] ∧ (∀ l : Loc, l ≠ [] → (FS.init []).node l = none) ∧
      wellTypedAll [("a".toList, .nil), ("a/".toList, .nil)] = true ∧
      (GenerateFromRoot "r".toList [("a".toList, .nil), ("a/".toList, .nil)] (FS.init [])).1 =
        some (.createDir "r/a".toList .notADirectory) ∧
      (GenerateFromRoot "r".toList [("a/".toList, .nil), ("a".toList, .nil)] (FS.init [])).1 =
        some (.createFile "r/a".toList .alreadyExists) ∧
      wellTypedAll [("a/b.txt".toList, .str "hello".toList)] = true ∧
      (GenerateFromRoot "r".toList [("a/b.txt".toList, .str "hello".toList)] (FS.init [])).1 =
        some (.createFile "r/a/b.txt".toList .notFound) ∧
      (∀ l : Loc, fsRootFile.locOf "r".toList <+: l → l ≠ fsRootFile.locOf "r".toList →
        fsRootFile.node l = none) ∧
      (GenerateFromRoot "r".toList [] fsRootFile).1 =
        some (.createDir "r".toList .notADirectory) ∧
      wellTypedAll [([Char.ofNat 0], .nil)] = true ∧
      (GenerateFromRoot "r".toList [([Char.ofNat 0], .nil)] (FS.init [])).1 =
        some (.createFile ("r/".toList ++ [Char.ofNat 0]) .invalid) := by
  refine ⟨by decide, ?_, by decide, by decide, by decide, by decide, by decide, ?_, by decide,
    by decide, by decide⟩
  · intro l hl
    cases l with
    | nil => exact absurd rfl hl
    | cons a l => rfl
  · intro l h1 h2
    have h3 : fsRootFile.locOf "r".toList = ["r".toList] := by decide
    rw [h3] at h1 h2
    obtain ⟨t, rfl⟩ := h1
    have h4 : fsRootFile.node (["r".toList] ++ t) =
        if ["r".toList] ++ t = ["r".toList] then some (.file [])
        else if (["r".toList] ++ t).isPrefixOf [] then some .dir else none := rfl
    rw [h4, if_neg h2]
    rfl

/-- C1, amended: on a filesystem with case-sensitive names and without symbolic
links, which no other process changes, when the root directory can be created
and nothing exists beneath it once it is, the operating system refuses neither
the creation of an entry nor a write at any location at which the tree describes
a file or a directory, and the tree is well formed, all its keys are plain
names, with or without the directory mark, and no two keys of one map denote the
same name, then `GenerateFromRoot` returns no error, and in the resulting state
every location beneath the root holds exactly what the tree describes there,
every other location being as the creation of the root directory left it. -/
theorem generate_well_formed (root : GoString) (tree : Corn) (fs fs1 : FS)
    (hroot : root ≠ []) (hwf : fs.WF) (hmk : createDir root fs = (none, fs1))
    (hempty : ∀ l, fs.locOf root <+: l → l ≠ fs.locOf root → fs1.node l = none)
    (hallow : ∀ rel, (expectAll tree rel).isSome = true → fs.allows (fs.locOf root ++ rel))
    (ht : wellTypedAll tree = true) (hc : plainAll tree = true)
    (hd : distinctAll tree = true) :
    (GenerateFromRoot root tree fs).1 = none ∧
      ∀ l, (GenerateFromRoot root tree fs).2.node l =
        if fs.locOf root <+: l ∧ l ≠ fs.locOf root then
          expectAll tree (l.drop (fs.locOf root).length)
        else fs1.node l := by
  have hsnd : (createDir root fs).2 = fs1 := by rw [hmk]
  have hle := createDir_le root fs
  rw [hsnd] at hle
  have hwf1 : fs1.WF := hsnd ▸ createDir_WF hwf
  have hloc1 : fs1.locOf root = fs.locOf root := locOf_congr hle.1 root
  have hR1 : fs1.node (fs1.locOf root) = some .dir := by
    rw [hloc1]; exact createDir_final hwf hmk
  have hfree : ∀ e ∈ tree, fs1.node (fs1.locOf root ++ [baseName e.1]) = none := by
    intro e _
    rw [hloc1]
    exact hempty _ (List.prefix_append _ _) (fun h => ne_self_concat _ _ h.symm)
  have hall : ∀ seg rel, (expectAll tree (seg :: rel)).isSome = true →
      fs1.allows (fs1.locOf root ++ seg :: rel) := by
    intro seg rel h
    rw [hloc1]
    exact allows_congr hle.1 (hallow (seg :: rel) h)
  have hex := generateAll_exact root tree fs1 hwf1 hroot hR1 hfree hall ht hc hd
  have hfr := generateAll_frame root tree fs1 hwf1 hroot hc hR1
  rw [hloc1] at hex hfr
  unfold GenerateFromRoot
  rw [if_neg hroot, hmk]
  refine ⟨hex.1, fun l => ?_⟩
  simp only
  split
  · next hl =>
    obtain ⟨⟨t, rfl⟩, hne⟩ := hl
    cases t with
    | nil => simp at hne
    | cons seg rel =>
      rw [hex.2 seg rel, hempty _ (List.prefix_append _ _) hne]
      simp only [List.drop_left]
      cases expectAll tree (seg :: rel) <;> rfl
  · next hl => exact hfr.2 l hl

/-- An instance of C1, amended: the tree of the example of the specification,
at the file `r/a/b.txt`. -/
theorem generate_well_formed_witness :
    (GenerateFromRoot "r".toList exampleTree (FS.init [])).1 = none ∧
      (GenerateFromRoot "r".toList exampleTree (FS.init [])).2.node
          ["r".toList, "a".toList, "b.txt".toList] =
        (if (FS.init []).locOf "r".toList <+: ["r".toList, "a".toList, "b.txt".toList] ∧
            ["r".toList, "a".toList, "b.txt".toList] ≠ (FS.init []).locOf "r".toList then
          expectAll exampleTree
            (["r".toList, "a".toList, "b.txt".toList].drop ((FS.init []).locOf "r".toList).length)
        else (createDir "r".toList (FS.init [])).2.node
          ["r".toList, "a".toList, "b.txt".toList]) :=
  have h := generate_well_formed "r".toList exampleTree (FS.init [])
    (createDir "r".toList (FS.init [])).2 (by decide) (FS.init_WF [])
    (Prod.ext (by decide) rfl)
    (by
      intro l h1 h2
      have h3 : (createDir "r".toList (FS.init [])).2.node l =
          if l = ["r".toList] then some .dir
          else if l.isPrefixOf [] then some .dir else none := rfl
      have h4 : (FS.init []).locOf "r".toList = ["r".toList] := by decide
      rw [h4] at h1 h2
      rw [h3, if_neg h2]
      obtain ⟨t, rfl⟩ := h1
      rfl)
    (by
      intro rel h
      refine ⟨?_, rfl⟩
      have h4 : (FS.init []).locOf "r".toList = ["r".toList] := by decide
      rw [h4]
      match rel, h with
      | [], h => cases h
      | [seg], h =>
        simp only [exampleTree, expectAll] at h
        split at h
        · next hs => subst hs; decide
        · cases h
      | [seg, seg2], h =>
        simp only [exampleTree, expectAll, expectEntry] at h
        split at h
        · next hs =>
          subst hs
          split at h
          · split at h
            · next hs2 => subst hs2; decide
            · split at h
              · next hs2 => subst hs2; decide
              · cases h
          · cases h
        · cases h
      | seg :: seg2 :: seg3 :: rel, h =>
        simp only [exampleTree, expectAll, expectEntry] at h
        repeat' split at h
        all_goals cases h)
    (by decide) (by decide) (by decide)
  ⟨h.1, h.2 _⟩

/-- C7, as stated, fails: with the keys `a/` and `a/b` of one map, the order that
visits `a/` first succeeds, and the order that visits `a/b` first fails, since
the directory `r/a` does not exist yet when the file is to be created. -/
theorem order_independent_counterexample :
    Reorder (.corn [("a/".toList, .nil), ("a/b".toList, .nil)])
        (.corn [("a/b".toList, .nil), ("a/".toList, .nil)]) ∧
      (GenerateFromRoot "r".toList [("a/".toList, .nil), ("a/b".toList, .nil)]
        (FS.init [])).1 = none ∧
      (GenerateFromRoot "r".toList [("a/b".toList, .nil), ("a/".toList, .nil)]
        (FS.init [])).1 = some (.createFile "r/a/b".toList .notFound) :=
  ⟨Reorder.swap [] [] _ _, by decide, by decide⟩

/-- C7, amended: on a filesystem with case-sensitive names and without symbolic
links, which no other process changes, and on which what the operating system
refuses depends on the location only, when every key of the tree is a plain
name, with or without the directory mark, and `GenerateFromRoot` succeeds with
the entries of each map visited in one order, it succeeds with them visited in
any other order, and the final filesystem state is the same. -/
theorem order_independent (root : GoString) (tree tree' : Corn) (fs fs' : FS)
    (hroot : root ≠ []) (hwf : fs.WF) (hplain : plainAll tree = true)
    (hkeys : nodupKeys tree = true) (hperm : Reorder (.corn tree) (.corn tree'))
    (h : GenerateFromRoot root tree fs = (none, fs')) :
    GenerateFromRoot root tree' fs = (none, fs') := by
  obtain ⟨files', hf, hsame⟩ := (reorder_sound hperm).2.1 tree rfl
  simp only [Content.corn.injEq] at hf
  subst hf
  unfold GenerateFromRoot at h ⊢
  rw [if_neg hroot] at h ⊢
  split at h
  · cases h
  · next fs1 h1 =>
    have hle := createDir_le root fs
    have hw1 : (createDir root fs).2.WF := createDir_WF hwf
    rw [h1] at hle hw1
    simp only at h hle hw1 ⊢
    refine hsame hplain hkeys root fs1 fs' hw1 hroot ?_ h
    rw [locOf_congr hle.1]
    exact createDir_final hwf h1

/-- An instance of C7, amended: a directory and a file, in either order. -/
theorem order_independent_witness :
    GenerateFromRoot "r".toList [("b".toList, .str "x".toList), ("a/".toList, .nil)]
        (FS.init []) =
      (none, (GenerateFromRoot "r".toList [("a/".toList, .nil), ("b".toList, .str "x".toList)]
        (FS.init [])).2) :=
  order_independent "r".toList [("a/".toList, .nil), ("b".toList, .str "x".toList)]
    [("b".toList, .str "x".toList), ("a/".toList, .nil)] (FS.init []) _ (by decide)
    (FS.init_WF []) (by decide) (by decide) (Reorder.swap [] [] _ _)
    (Prod.ext (by decide) rfl)

/-- An instance of C6: below the root `r`, the file `a` is created, the
directory `b` fails on its content, and the file `c` is never reached. -/
theorem first_error_stops_walk_witness :
    GenerateFromRoot "r".toList
        ([("a".toList, Content.nil)] ++ ("b/".toList, Content.other "int".toList) ::
          [("c".toList, Content.nil)]) (FS.init []) =
      (some (.dirContent "int".toList),
        (generate "r".toList "b/".toList (.other "int".toList)
          (generateAll "r".toList [("a".toList, .nil)]
            (createDir "r".toList (FS.init [])).2).2).2) :=
  (first_error_stops_walk "r".toList "b/".toList (.other "int".toList)
    [("a".toList, .nil)] [("c".toList, .nil)] (createDir "r".toList (FS.init [])).2
    (generateAll "r".toList [("a".toList, .nil)] (createDir "r".toList (FS.init [])).2).2 _
    (.dirContent "int".toList) (Prod.ext (by decide) rfl) (Prod.ext (by decide) rfl)).1
    (FS.init []) (by decide) (Prod.ext (by decide) rfl)

/-- An instance of C10: the second run on a tree of directories, which visits
the two directories of the root in the other order. -/
theorem directory_creation_idempotent_witness :
    GenerateFromRoot "r".toList [("d/".toList, .nil), ("a/".toList, .corn [("c/".toList, .nil)])]
        (GenerateFromRoot "r".toList dirTree (FS.init [])).2 =
      (none, (GenerateFromRoot "r".toList dirTree (FS.init [])).2) :=
  directory_creation_idempotent "r".toList dirTree
    [("d/".toList, .nil), ("a/".toList, .corn [("c/".toList, .nil)])] (FS.init []) _
    (by decide) (by decide) (Reorder.swap [] [] _ _) (Prod.ext (by decide) rfl)

end Pop
